import Mathlib

/-!
Verification of the fwencoder fixed-width table codec (o1egl/fwencoder).

The Go source (encoder.go, decoder.go) is shallowly embedded below.  Lines
and cell contents are modelled as `List Char` (one entry per logical
character, i.e. per Go rune); where the Go code measures a string in raw
UTF-8 bytes (`len(s)`) the model uses `utf8Len`, and where it measures in
runes (`len([]rune(s))` or `fmt` padding widths) the model uses
`List.length`.  Machine integers are modelled as `Int`/`Nat` with explicit
bit-width bounds.  Fallible operations return `Option`/`Except`, and the
panic/recover pair at the public API boundary (which converts reflect
`ValueError` panics into returned errors) is modelled by explicit error
propagation.

Modelled scope: the scalar field kinds int/int8/int16/int32/int64 (the
platform `int` is modelled as 64-bit, matching the test platform),
uint/uint8/uint16/uint32/uint64, bool, string, and `time.Time` with the
default RFC 3339 format restricted to whole seconds and UTC offsets (the
only form the claims exercise).  Floating-point fields and the JSON
fallback for structural types are outside the model.  Struct tags
(`column`/`json` name overrides, `format`) are collapsed: a field's
`name` below is its already-resolved column name, and time fields use the
default RFC 3339 format.

The header matcher splices each column name unescaped into
`regexp.Compile(fmt.Sprintf("(%s *)", colName))`.  The model of that
regexp use (`reScan`, `findPattern`) is exactly faithful only for ASCII
names free of regexp metacharacters, searched in ASCII headers; theorems
quantifying over names restrict themselves to that fragment, and
`dotFirstOccur` models Go's actual non-literal matching of a `.` in a
name far enough to exhibit the divergence.
-/

deriving instance DecidableEq for Except

namespace Fwencoder

/-- A Go string viewed as its sequence of runes (logical characters). -/
abbrev Str := List Char

/-- Number of bytes of one rune in UTF-8, from its code point.  Models the
contribution of one rune to Go's byte-level `len(s)`. -/
def charBytes (c : Char) : Nat :=
  if c.toNat < 128 then 1
  else if c.toNat < 2048 then 2
  else if c.toNat < 65536 then 3
  else 4

/-- UTF-8 byte length of a string, Go's `len(s)` on a `string`. -/
def utf8Len (s : Str) : Nat := (s.map charBytes).sum

/-- The whitespace test used by Go's `strings.TrimSpace` (`unicode.IsSpace`),
restricted to the Latin-1 range; the further Unicode space code points never
appear in the inputs the claims are about. -/
def isGoSpace (c : Char) : Bool :=
  c = ' ' || c = '\t' || c = '\n' || c = Char.ofNat 11 || c = Char.ofNat 12 ||
  c = '\r' || c = Char.ofNat 133 || c = Char.ofNat 160

/-- Drop trailing characters satisfying the Go space test. -/
def trimTrailing (s : Str) : Str :=
  ((s.reverse).dropWhile isGoSpace).reverse

/-- Go `strings.TrimSpace`: drop leading and trailing white space. -/
def goTrimSpace (s : Str) : Str :=
  trimTrailing (s.dropWhile isGoSpace)

/-- A run of `n` spaces. -/
def spaces (n : Nat) : Str := List.replicate n ' '

/-- Left-justified padding to width `w`, as done by `fmt.Fprintf` with a
`%-<w>s` (or `%-<w>d` etc.) verb: `fmt` counts the width in runes. -/
def padRight (s : Str) (w : Nat) : Str := s ++ spaces (w - s.length)

/-- Join pieces with a single separator between consecutive pieces and no
leading/trailing separator; the emission shape of both the header writer and
the row writer in encoder.go. -/
def joinSep (sep : Str) : List Str → Str
  | [] => []
  | [x] => x
  | x :: y :: rest => x ++ sep ++ joinSep sep (y :: rest)

/-- Split at every newline character; `splitNL s` always has one more part
than `s` has newlines. -/
def splitNL : Str → List Str
  | [] => [[]]
  | c :: rest =>
    match splitNL rest with
    | [] => [[]]
    | l :: ls => if c = '\n' then [] :: l :: ls else (c :: l) :: ls

/-- Strip one trailing carriage return, as `bufio.ScanLines` does per line. -/
def dropCR (s : Str) : Str :=
  if s.getLast? = some '\r' then s.dropLast else s

/-- A final newline does not produce one more (empty) scanner token. -/
def stripLastEmpty (parts : List Str) : List Str :=
  if parts.getLast? = some [] then parts.dropLast else parts

/-- The sequence of lines a `bufio.Scanner` with `ScanLines` yields for the
whole input: newline-separated, final newline not producing an empty line,
each line stripped of one trailing `\r`. -/
def goScanLines (s : Str) : List Str :=
  (stripLastEmpty (splitNL s)).map dropCR

/-- The decimal digit character for `d < 10`. -/
def digitChar (d : Nat) : Char := Char.ofNat (48 + d)

/-- Is `c` a decimal digit? -/
def isDigitCh (c : Char) : Bool := 48 ≤ c.toNat && c.toNat ≤ 57

/-- Numeric value of a digit character. -/
def digitVal (c : Char) : Nat := c.toNat - 48

/-- Fuelled decimal rendering of a natural number, most significant digit
first.  The fuel only bounds the recursion; `natToDigits` supplies enough. -/
def natToDigitsAux : Nat → Nat → Str
  | 0, _ => []
  | fuel + 1, n =>
    if n < 10 then [digitChar n]
    else natToDigitsAux fuel (n / 10) ++ [digitChar (n % 10)]

/-- Decimal rendering of a natural number, Go's `strconv.FormatUint`. -/
def natToDigits (n : Nat) : Str := natToDigitsAux (n + 1) n

/-- Decimal rendering of an integer, Go's `strconv.FormatInt`. -/
def goFormatInt (i : Int) : Str :=
  if i < 0 then '-' :: natToDigits (-i).toNat else natToDigits i.toNat

/-- Accumulating read of a digit string; fails on any non-digit. -/
def parseDigitsAux : Str → Nat → Option Nat
  | [], acc => some acc
  | c :: rest, acc =>
    if isDigitCh c then parseDigitsAux rest (acc * 10 + digitVal c) else none

/-- Read a non-empty all-digit string as a natural number. -/
def parseDigits : Str → Option Nat
  | [] => none
  | c :: rest => parseDigitsAux (c :: rest) 0

/-- The syntactic part of Go's `strconv.ParseInt` for base 10: an optional
sign followed by a non-empty run of decimal digits, with no range check. -/
def parseIntSyntax (s : Str) : Option Int :=
  match s with
  | [] => none
  | c :: rest =>
    if c = '+' then (parseDigits rest).map Int.ofNat
    else if c = '-' then (parseDigits rest).map (fun n => -(n : Int))
    else (parseDigits (c :: rest)).map Int.ofNat

/-- Go `strconv.ParseInt(s, 10, 0)` on a 64-bit platform: syntax check, then
the signed 64-bit range check; any failure (syntax or range) surfaces as a
non-nil error in the caller. -/
def goParseInt64 (s : Str) : Option Int :=
  match parseIntSyntax s with
  | none => none
  | some v => if -(2 ^ 63) ≤ v ∧ v < 2 ^ 63 then some v else none

/-- Go `strconv.ParseUint(s, 10, 64)`: digits only (no sign), unsigned
64-bit range check. -/
def goParseUint64 (s : Str) : Option Nat :=
  match parseDigits s with
  | none => none
  | some v => if v < 2 ^ 64 then some v else none

/-- Go `strconv.ParseBool`: the accepted literal spellings. -/
def goParseBool (s : Str) : Option Bool :=
  if s = "1".data ∨ s = "t".data ∨ s = "T".data ∨ s = "true".data ∨
     s = "TRUE".data ∨ s = "True".data then some true
  else if s = "0".data ∨ s = "f".data ∨ s = "F".data ∨ s = "false".data ∨
     s = "FALSE".data ∨ s = "False".data then some false
  else none

/-- A `time.Time` value as the codec observes it, restricted to UTC and the
fields RFC 3339 exposes.  Sub-second precision is kept (`nsec`) because
`time.Time.Format` with the default RFC 3339 layout silently drops it. -/
structure GoTime where
  year : Nat
  month : Nat
  day : Nat
  hour : Nat
  minute : Nat
  second : Nat
  nsec : Nat
deriving DecidableEq

/-- Two decimal digits with a leading zero, `%02d`. -/
def pad2 (n : Nat) : Str :=
  if n < 10 then '0' :: natToDigits n else natToDigits n

/-- Four decimal digits with leading zeros, the year field of RFC 3339. -/
def pad4 (n : Nat) : Str :=
  if n < 10 then '0' :: '0' :: '0' :: natToDigits n
  else if n < 100 then '0' :: '0' :: natToDigits n
  else if n < 1000 then '0' :: natToDigits n
  else natToDigits n

/-- `time.Time.Format(time.RFC3339)` for a UTC time: the offset renders as
`Z` and the fractional second is dropped. -/
def rfc3339Render (t : GoTime) : Str :=
  pad4 t.year ++ '-' :: pad2 t.month ++ '-' :: pad2 t.day ++
  'T' :: pad2 t.hour ++ ':' :: pad2 t.minute ++ ':' :: pad2 t.second ++ ['Z']

/-- Number of days in a month, with the Gregorian leap rule, as
`time.Parse` uses to validate the day of the month. -/
def daysIn (year month : Nat) : Nat :=
  if month = 2 then
    if year % 4 = 0 ∧ (year % 100 ≠ 0 ∨ year % 400 = 0) then 29 else 28
  else if month = 4 ∨ month = 6 ∨ month = 9 ∨ month = 11 then 30
  else 31

/-- The field ranges `time.Parse` accepts (and within which the RFC 3339
rendering is 20 characters with `Z` offset). -/
def timeValid (t : GoTime) : Prop :=
  t.year ≤ 9999 ∧ 1 ≤ t.month ∧ t.month ≤ 12 ∧ 1 ≤ t.day ∧
  t.day ≤ daysIn t.year t.month ∧ t.hour ≤ 23 ∧ t.minute ≤ 59 ∧ t.second ≤ 59

instance (t : GoTime) : Decidable (timeValid t) := by
  unfold timeValid; infer_instance

/-- Read a two-digit decimal number. -/
def read2 (a b : Char) : Option Nat :=
  if isDigitCh a ∧ isDigitCh b then some (digitVal a * 10 + digitVal b) else none

/-- Read a four-digit decimal number. -/
def read4 (a b c d : Char) : Option Nat :=
  if isDigitCh a ∧ isDigitCh b ∧ isDigitCh c ∧ isDigitCh d then
    some (((digitVal a * 10 + digitVal b) * 10 + digitVal c) * 10 + digitVal d)
  else none

/-- `time.Parse(time.RFC3339, s)` restricted to the whole-second UTC form
(the exact image of `rfc3339Render`); the full parser also accepts
fractional seconds and numeric offsets, which the claims never exercise.
The field ranges checked are the ones `time.Parse` enforces. -/
def rfc3339Parse (s : Str) : Option GoTime :=
  match s with
  | [y1, y2, y3, y4, '-', m1, m2, '-', d1, d2, 'T',
     h1, h2, ':', i1, i2, ':', s1, s2, 'Z'] =>
    match read4 y1 y2 y3 y4, read2 m1 m2, read2 d1 d2,
        read2 h1 h2, read2 i1 i2, read2 s1 s2 with
    | some y, some mo, some d, some h, some mi, some sec =>
      if 1 ≤ mo ∧ mo ≤ 12 ∧ 1 ≤ d ∧ d ≤ daysIn y mo ∧ h ≤ 23 ∧ mi ≤ 59 ∧
         sec ≤ 59 then
        some ⟨y, mo, d, h, mi, sec, 0⟩
      else none
    | _, _, _, _, _, _ => none
  | _ => none

/-- The integer bit widths of the supported signed and unsigned kinds.  The
platform-dependent Go `int`/`uint` (64-bit on the test platform, and the
width `strconv.ParseInt(s, 10, 0)` checks) are modelled by `w64`. -/
inductive IntW
  | w8
  | w16
  | w32
  | w64
deriving DecidableEq

/-- Bit count of a width. -/
def IntW.bits : IntW → Nat
  | .w8 => 8
  | .w16 => 16
  | .w32 => 32
  | .w64 => 64

/-- `¬ reflect.Value.OverflowInt`: the value is representable in the field's
declared signed width. -/
def fitsInt (w : IntW) (v : Int) : Prop :=
  -(2 ^ (w.bits - 1)) ≤ v ∧ v < 2 ^ (w.bits - 1)

instance (w : IntW) (v : Int) : Decidable (fitsInt w v) := by
  unfold fitsInt; infer_instance

/-- `¬ reflect.Value.OverflowUint`: representable in the unsigned width. -/
def fitsUint (w : IntW) (v : Nat) : Prop := v < 2 ^ w.bits

instance (w : IntW) (v : Nat) : Decidable (fitsUint w v) := by
  unfold fitsUint; infer_instance

/-- The scalar field kinds in the model (floating point and the JSON
fallback are outside it). -/
inductive FieldType
  | intK (w : IntW)
  | uintK (w : IntW)
  | strK
  | boolK
  | timeK
deriving DecidableEq

/-- The Go type name as it appears in cast/overflow error messages. -/
def FieldType.goName : FieldType → Str
  | .intK .w8 => "int8".data
  | .intK .w16 => "int16".data
  | .intK .w32 => "int32".data
  | .intK .w64 => "int64".data
  | .uintK .w8 => "uint8".data
  | .uintK .w16 => "uint16".data
  | .uintK .w32 => "uint32".data
  | .uintK .w64 => "uint64".data
  | .strK => "string".data
  | .boolK => "bool".data
  | .timeK => "time.Time".data

/-- A typed Go field value. -/
inductive FieldVal
  | vint (w : IntW) (v : Int)
  | vuint (w : IntW) (v : Nat)
  | vstr (s : Str)
  | vbool (b : Bool)
  | vtime (t : GoTime)
deriving DecidableEq

/-- One struct field as the codec sees it: `name` is the already-resolved
column name (`column` tag, else `json` tag, else the field name), `isPtr`
marks optional (pointer) fields. -/
structure FieldDesc where
  name : Str
  ty : FieldType
  isPtr : Bool
deriving DecidableEq

/-- The record type: its fields in declaration order. -/
abbrev Schema := List FieldDesc

/-- One decoded/encoded record: per field, `none` is a nil pointer. -/
abbrev Record := List (Option FieldVal)

/-- The Go zero value of a field type. -/
def FieldType.zeroVal : FieldType → FieldVal
  | .intK w => .vint w 0
  | .uintK w => .vuint w 0
  | .strK => .vstr []
  | .boolK => .vbool false
  | .timeK => .vtime ⟨1, 1, 1, 0, 0, 0, 0⟩

/-- The zero value of a whole field: nil for pointer fields. -/
def zeroField (f : FieldDesc) : Option FieldVal :=
  if f.isPtr then none else some f.ty.zeroVal

/-- The type string used in error messages, with a `*` prefix for pointer
fields (`%v` of the struct field's type). -/
def typeName (f : FieldDesc) : Str :=
  (if f.isPtr then ['*'] else []) ++ f.ty.goName

/-- The errors the codec returns, with the data each message carries.
`reflectError` is a reflect `ValueError` panic (named by the offending
method) that the `recover` at the API boundary converts into a returned
error. -/
inductive GoErr
  | incorrectInput
  | wrongDataLength (lineNum : Nat)
  | lineError (lineNum : Nat) (cause : GoErr)
  | castError (raw : Str) (fieldName : Str) (fieldType : Str)
  | overflowErrorInt (value : Int) (fieldName : Str) (fieldType : Str)
  | overflowErrorUint (value : Nat) (fieldName : Str) (fieldType : Str)
  | patternError (colName : Str)
  | reflectError (method : Str)
deriving DecidableEq

/-- Does an error (possibly wrapped in a per-line error) report a numeric
overflow? -/
def isOverflowErr : GoErr → Bool
  | .lineError _ e => isOverflowErr e
  | .overflowErrorInt _ _ _ => true
  | .overflowErrorUint _ _ _ => true
  | _ => false

/-- A column span found in the header line.  `stop` models the Go struct
field `end` (one past the last consumed character, trailing spaces
included). -/
structure FwColumn where
  name : Str
  start : Nat
  stop : Nat
deriving DecidableEq

/-- The pattern text `parseHeaders` compiles for a column name:
`fmt.Sprintf("(%s *)", colName)`. -/
def mkHeaderPattern (name : Str) : Str :=
  '(' :: (name ++ [' ', '*', ')'])

/-- Is `c` an ASCII letter or digit? -/
def isAlphaNumCh (c : Char) : Bool :=
  (48 ≤ c.toNat && c.toNat ≤ 57) || (65 ≤ c.toNat && c.toNat ≤ 90) ||
  (97 ≤ c.toNat && c.toNat ≤ 122)

/-- Is `\c` an escape Go's regexp accepts? -/
def escOK (c : Char) : Bool :=
  !isAlphaNumCh c || "dswDSWbBazAnrtfv".data.contains c

/-- Syntax scan modelling `regexp.Compile` success.  `d` is the open-group
depth; `a` records what precedes (0: nothing repeatable, 1: a repeatable
atom, 2: a repetition operator, which only `?` may follow); `inClass` is
set while skipping a `[...]` character class.  An APPROXIMATION of Go's
RE2 syntax, exactly faithful only on patterns built from
metacharacter-free names (always valid, `plainName_regexValid`): away
from that fragment it diverges from `regexp.Compile` in both directions —
it accepts `([] *)` (Go rejects the unclosed class), rejects `((?i)x *)`
(Go accepts the flag group), and `escOK` knows nothing of `\x41`-style
escapes.  Theorems therefore invoke it only under `litName`/`plainName`
hypotheses that keep every quantified name inside the faithful
fragment. -/
def reScan : Str → Nat → Nat → Bool → Bool
  | [], d, _, inClass => !inClass && d = 0
  | c :: rest, d, a, inClass =>
    if inClass then
      if c = ']' then reScan rest d 1 false
      else if c = '\\' then
        match rest with
        | [] => false
        | _ :: rest2 => reScan rest2 d a true
      else reScan rest d a true
    else
      if c = '(' then reScan rest (d + 1) 0 false
      else if c = ')' then d ≠ 0 && reScan rest (d - 1) 1 false
      else if c = '*' ∨ c = '+' then a = 1 && reScan rest d 2 false
      else if c = '?' then (a = 1 ∨ a = 2) && reScan rest d (if a = 1 then 2 else 0) false
      else if c = '|' then reScan rest d 0 false
      else if c = '\\' then
        match rest with
        | [] => false
        | e :: rest2 => escOK e && reScan rest2 d 1 false
      else if c = '[' then reScan rest d a true
      else reScan rest d 1 false

/-- Does the pattern compile? -/
def goRegexpValid (p : Str) : Bool := reScan p 0 0 false

/-- Index of the leftmost occurrence of `pat` in `cs`. -/
def firstOccur (pat : Str) : Str → Option Nat
  | [] => if pat.isPrefixOf ([] : Str) then some 0 else none
  | c :: rest =>
    if pat.isPrefixOf (c :: rest) then some 0
    else (firstOccur pat rest).map (· + 1)

/-- Length of the leading run of spaces. -/
def countSpaces (s : Str) : Nat := (s.takeWhile (fun c => c = ' ')).length

/-- `regexp.FindStringIndex` for the compiled `(name *)` pattern when
`name` has no regexp metacharacters: the leftmost occurrence of the
LITERAL name, with the end extended over the maximal following run of
spaces.  This is NOT what Go does for metacharacter names — the name is
spliced unescaped into the pattern, so e.g. `A.B` matches the header text
`AXB` (`dotFirstOccur` below models that actual behavior and
`C5_counterexample` exhibits the divergence) — and Go returns byte
offsets where this counts runes, which coincide only for ASCII headers.
Theorems quantifying over names therefore carry `litName`/`plainName`
and ASCII-header hypotheses restricting them to the fragment where this
definition and the program agree. -/
def findPattern (name : Str) (line : Str) : Option (Nat × Nat) :=
  match firstOccur name line with
  | none => none
  | some s => some (s, s + name.length + countSpaces (line.drop (s + name.length)))

/-- One step of RE2 matching for a pattern of literal characters and the
`.` metacharacter: `.` matches any character except a newline, any other
pattern character only itself. -/
def dotStep (p c : Char) : Bool :=
  if p = '.' then c != '\n' else p == c

/-- Does the literal-plus-dot pattern match a prefix of `cs`? -/
def dotPrefixB : Str → Str → Bool
  | [], _ => true
  | _ :: _, [] => false
  | p :: pt, c :: ct => dotStep p c && dotPrefixB pt ct

/-- Leftmost match position of a literal-plus-dot pattern — Go's actual
`regexp.FindStringIndex` semantics for a column name such as `A.B`, whose
unescaped `.` the compiled pattern treats as "any character".  Used to
witness that header matching of metacharacter names is not literal. -/
def dotFirstOccur (pat : Str) : Str → Option Nat
  | [] => if dotPrefixB pat [] then some 0 else none
  | c :: rest =>
    if dotPrefixB pat (c :: rest) then some 0
    else (dotFirstOccur pat rest).map (· + 1)

/-- `parseHeaders`: for each resolved column name in field-declaration
order, compile `(name *)` (failure aborts the whole decode), search the
header line, and record the span if found; names with no match are
silently dropped. -/
def parseHeaders (headerLine : Str) : List Str → Except GoErr (List FwColumn)
  | [] => .ok []
  | n :: rest =>
    if goRegexpValid (mkHeaderPattern n) then
      match findPattern n headerLine with
      | none => parseHeaders headerLine rest
      | some (s, e) =>
        match parseHeaders headerLine rest with
        | .error err => .error err
        | .ok cols => .ok (⟨n, s, e⟩ :: cols)
    else .error (.patternError n)

/-- The `fieldsIndex` map from resolved column name to raw cell text. -/
abbrev MapSS := List (Str × Str)

/-- Go map lookup. -/
def mapLookup (m : MapSS) (k : Str) : Option Str :=
  (m.find? (fun p => p.1 == k)).map (·.2)

/-- Go map assignment (replace or add). -/
def mapInsert (m : MapSS) (k v : Str) : MapSS :=
  match m with
  | [] => [(k, v)]
  | p :: rest => if p.1 == k then (k, v) :: rest else p :: mapInsert rest k v

/-- One line's pass over the resolved columns:
`fieldsIndex[col.name] = string(lineRunes[col.start:col.end])`. -/
def insertColumns (m : MapSS) (cols : List FwColumn) (line : Str) : MapSS :=
  cols.foldl
    (fun m c => mapInsert m c.name ((line.drop c.start).take (c.stop - c.start))) m

/-- `setFieldValue`: trim the raw cell, then parse by field kind; pointer
and value fields share the parse and the overflow check (the pointer case
only boxes the result), so both map to the same model value. -/
def setFieldValue (f : FieldDesc) (rawValue : Str) : Except GoErr (Option FieldVal) :=
  let raw := goTrimSpace rawValue
  match f.ty with
  | .intK w =>
    match goParseInt64 raw with
    | none => .error (.castError raw f.name (typeName f))
    | some v =>
      if fitsInt w v then .ok (some (.vint w v))
      else .error (.overflowErrorInt v f.name (typeName f))
  | .uintK w =>
    match goParseUint64 raw with
    | none => .error (.castError raw f.name (typeName f))
    | some v =>
      if fitsUint w v then .ok (some (.vuint w v))
      else .error (.overflowErrorUint v f.name (typeName f))
  | .strK => .ok (some (.vstr raw))
  | .boolK =>
    match goParseBool raw with
    | none => .error (.castError raw f.name (typeName f))
    | some b => .ok (some (.vbool b))
  | .timeK =>
    match rfc3339Parse raw with
    | none => .error (.castError raw f.name (typeName f))
    | some t => .ok (some (.vtime t))

/-- `createObject`: iterate the fields in declaration order; a field whose
resolved name is absent from the index keeps its zero value; the first
field error aborts the record. -/
def createObject (m : MapSS) : Schema → Except GoErr Record
  | [] => .ok []
  | f :: rest =>
    match mapLookup m f.name with
    | none => (createObject m rest).map (zeroField f :: ·)
    | some raw =>
      match setFieldValue f raw with
      | .error e => .error e
      | .ok v => (createObject m rest).map (v :: ·)

/-- The scan loop of `parseData` after the header line: `n` is the 1-based
line number of the next line, `m` the `fieldsIndex` map (allocated once and
carried across lines), `acc` the records appended to the caller's slice so
far.  Errors stop the loop with `acc` as the slice's final contents. -/
def parseDataLoop (schema : Schema) (hdrLen : Nat) (cols : List FwColumn) :
    List Str → Nat → MapSS → List Record → List Record × Option GoErr
  | [], _, _, acc => (acc, none)
  | l :: ls, n, m, acc =>
    if l.length ≠ hdrLen then (acc, some (.wrongDataLength n))
    else
      let m2 := insertColumns m cols l
      match createObject m2 schema with
      | .error e => (acc, some (.lineError n e))
      | .ok r => parseDataLoop schema hdrLen cols ls (n + 1) m2 (acc ++ [r])

/-- `parseData`: line 1 is the header (its rune length becomes the required
length of every data line); empty input decodes to no records and no
error. -/
def parseData (input : Str) (schema : Schema) : List Record × Option GoErr :=
  match goScanLines input with
  | [] => ([], none)
  | hdr :: rest =>
    match parseHeaders hdr (schema.map (·.name)) with
    | .error e => ([], some e)
    | .ok cols => parseDataLoop schema hdr.length cols rest 2 [] []

/-- The reflect kind shape of a target value's type. -/
inductive GoKind
  | kScalar (t : FieldType)
  | kStruct (s : Schema)
  | kSlice (e : GoKind)
  | kPtr (e : GoKind)
deriving DecidableEq

/-- `validateInput`: the target's type must be a pointer to a slice of
structs or of pointers to structs; `none` models a nil interface
(`reflect.TypeOf(v) == nil`).  Purely type-level: a nil pointer of the
right type passes. -/
def validateInput : Option GoKind → Except GoErr (Schema × Bool)
  | none => .error .incorrectInput
  | some t0 =>
    match t0 with
    | .kPtr (.kSlice t2) =>
      match t2 with
      | .kPtr (.kStruct s) => .ok (s, true)
      | .kStruct s => .ok (s, false)
      | _ => .error .incorrectInput
    | _ => .error .incorrectInput

/-- `Unmarshal`/`UnmarshalReader`: validate the target type, then (for a
non-nil pointer) reset the target slice and scan.  `tgtIsNilPtr` marks a
typed nil pointer target: validation passes but `slice.Slice(0, 0)` then
panics with a reflect `ValueError` ("Slice"), recovered into the returned
error, leaving the target (`prior`) untouched.  The result pair is the
target slice's final contents and the returned error. -/
def unmarshalModel (tgt : Option GoKind) (tgtIsNilPtr : Bool) (input : Str)
    (prior : List Record) : List Record × Option GoErr :=
  match validateInput tgt with
  | .error e => (prior, some e)
  | .ok (schema, _) =>
    if tgtIsNilPtr then (prior, some (.reflectError "Slice".data))
    else parseData input schema

/-- The rendering of one present field value, as `writeValue` prints it
before padding. -/
def renderVal : FieldVal → Str
  | .vint _ v => goFormatInt v
  | .vuint _ v => natToDigits v
  | .vstr s => s
  | .vbool b => if b then "true".data else "false".data
  | .vtime t => rfc3339Render t

/-- `getFieldLen`: the width contribution of one cell in the first encode
pass.  A nil pointer contributes 0.  For strings Go measures `len(s)` in
BYTES (while names and `fmt` padding count runes); integer, bool and time
renderings are ASCII, where the two measures coincide. -/
def getFieldLen : Option FieldVal → Nat
  | none => 0
  | some (.vint _ v) => (goFormatInt v).length
  | some (.vuint _ v) => (natToDigits v).length
  | some (.vbool b) => if b then 4 else 5
  | some (.vstr s) => utf8Len s
  | some (.vtime t) => (rfc3339Render t).length

/-- The `columnWidthMap` of encoder.go as an association list. -/
abbrev CWI := List (Str × Nat)

/-- Lookup in the width map. -/
def cwmLookup (m : CWI) (k : Str) : Option Nat :=
  (m.find? (fun p => p.1 == k)).map (·.2)

/-- Replace-or-add in the width map. -/
def cwmInsert (m : CWI) (k : Str) (v : Nat) : CWI :=
  match m with
  | [] => [(k, v)]
  | p :: rest => if p.1 == k then (k, v) :: rest else p :: cwmInsert rest k v

/-- `columnWidthMap.Set`: a first write seeds the entry with the column
name's rune length, then the entry keeps the maximum width seen. -/
def cwmSet (m : CWI) (name : Str) (width : Nat) : CWI :=
  match cwmLookup m name with
  | none =>
    let seeded := name.length
    if seeded < width then cwmInsert m name width else cwmInsert m name seeded
  | some old => if old < width then cwmInsert m name width else m

/-- Go map read with the zero value for a missing key. -/
def cwmGet (m : CWI) (name : Str) : Nat := (cwmLookup m name).getD 0

/-- Every entry ever written is at least its column name's length — the
invariant `columnWidthMap.Set` maintains by seeding new entries with the
name's rune length. -/
def cwmSeeded (m : CWI) : Prop :=
  ∀ n o, cwmLookup m n = some o → n.length ≤ o

/-- The inner loop of pass 1: `Set` once per field of one element. -/
def cwmAddRecord (schema : Schema) (m : CWI) (r : Record) : CWI :=
  (schema.zip r).foldl (fun m fr => cwmSet m fr.1.name (getFieldLen fr.2)) m

/-- One element of the slice in pass 1: nil elements are skipped. -/
def cwmAddElem (schema : Schema) (m : CWI) : Option Record → CWI
  | none => m
  | some r => cwmAddRecord schema m r

/-- `makeColumnWidthIndex`, pass 1 of the encoder: nil slice elements are
skipped entirely; every field of every other element feeds `Set`. -/
def makeColumnWidthIndex (schema : Schema) (elems : List (Option Record)) : CWI :=
  elems.foldl (cwmAddElem schema) []

/-- The pass-1 contributions one element list makes to one column, in
order. -/
def rowContribs (n : Str) (pairs : List (FieldDesc × Option FieldVal)) : List Nat :=
  pairs.filterMap (fun fr => if fr.1.name = n then some (getFieldLen fr.2) else none)

/-- `writeValue`: a nil pointer prints as a run of spaces of the column
width; a present value prints left-justified padded to the width. -/
def writeValue (v : Option FieldVal) (width : Nat) : Str :=
  match v with
  | none => spaces width
  | some x => padRight (renderVal x) width

/-- `writeHeader`: names left-justified to their column widths, single
space separated, then a newline. -/
def writeHeader (names : List Str) (m : CWI) : Str :=
  joinSep [' '] (names.map (fun n => padRight n (cwmGet m n))) ++ ['\n']

/-- One emitted record line (cells single-space separated, no newline). -/
def renderRow (schema : Schema) (m : CWI) (r : Record) : Str :=
  joinSep [' '] ((schema.zip r).map (fun fr => writeValue fr.2 (cwmGet m fr.1.name)))

/-- `writeData`, pass 2: one line per element, a newline between
consecutive lines and none after the last.  A nil element makes
`item.Elem().NumField()` panic with a reflect `ValueError` ("NumField"),
after the previous rows (and the newline following them) are already
written; the pair is (output written, returned error). -/
def writeData (schema : Schema) (m : CWI) : List (Option Record) → Str × Option GoErr
  | [] => ([], none)
  | none :: _ => ([], some (.reflectError "NumField".data))
  | some r :: rest =>
    match rest with
    | [] => (renderRow schema m r, none)
    | _ :: _ =>
      let (out, err) := writeData schema m rest
      (renderRow schema m r ++ '\n' :: out, err)

/-- `Marshal`/`MarshalWriter`: the target must be a pointer to a slice of
structs or of pointers to structs; a typed nil pointer passes the type
checks and then `slice.Len()` panics ("Len").  Otherwise: width pass,
header, rows; the pair is (bytes written, returned error). -/
def marshalModel (tgt : Option GoKind) (tgtIsNilPtr : Bool)
    (elems : List (Option Record)) : Str × Option GoErr :=
  match tgt with
  | none => ([], some .incorrectInput)
  | some t0 =>
    match t0 with
    | .kPtr (.kSlice t2) =>
      let sliceType := match t2 with | .kPtr e => e | _ => t2
      match sliceType with
      | .kStruct schema =>
        if tgtIsNilPtr then ([], some (.reflectError "Len".data))
        else
          let cwi := makeColumnWidthIndex schema elems
          let (rows, err) := writeData schema cwi elems
          (writeHeader (schema.map (·.name)) cwi ++ rows, err)
      | _ => ([], some .incorrectInput)
    | _ => ([], some .incorrectInput)

/-- The regexp metacharacters; a name avoiding them matches literally. -/
def reMetachars : Str :=
  ['\\', '.', '+', '*', '?', '(', ')', '|', '[', ']',
   Char.ofNat 123, Char.ofNat 125, '^', '$']

/-- An ASCII, non-metacharacter column-name character (spaces allowed):
for such names the compiled `(name *)` pattern matches the literal name
and byte offsets equal character offsets. -/
def litChar (c : Char) : Bool := c.toNat < 128 && !reMetachars.contains c

/-- A name of literal characters only. -/
def litName (n : Str) : Bool := n.all litChar

/-- A literal-character name that is also non-empty and space-free — the
shape under which header matching provably aligns with the emitted column
layout. -/
def plainChar (c : Char) : Bool := litChar c && !isGoSpace c

/-- Non-empty name of plain characters. -/
def plainName (n : Str) : Bool := !n.isEmpty && n.all plainChar

/-- No schema name is an infix of another (in particular all names are
distinct), ruling out a name matching inside an earlier column's name. -/
def namesSeparated (schema : Schema) : Prop :=
  List.Pairwise (fun a b : FieldDesc => ¬ a.name <:+: b.name ∧ ¬ b.name <:+: a.name) schema

/-- `pat` occurs in `cs` at position `k`. -/
def isPrefixAt (pat cs : Str) (k : Nat) : Prop := pat <+: cs.drop k

/-- The value is well typed for the field and within its declared numeric
width — every value a Go record of that struct type can actually hold. -/
def wellTypedB (f : FieldDesc) (v : Option FieldVal) : Bool :=
  match v with
  | none => f.isPtr
  | some (.vint w i) => f.ty == .intK w && decide (fitsInt w i)
  | some (.vuint w u) => f.ty == .uintK w && decide (fitsUint w u)
  | some (.vstr _) => f.ty == .strK
  | some (.vbool _) => f.ty == .boolK
  | some (.vtime _) => f.ty == .timeK

/-- String values free of line breaks (so a rendered row stays one line). -/
def cleanValB : Option FieldVal → Bool
  | some (.vstr s) => !s.contains '\n' && !s.contains '\r'
  | _ => true

/-- Round-trippable value: well typed, strings unchanged by trimming and
free of line breaks, times calendar-valid with whole seconds. -/
def rtValB (f : FieldDesc) (v : Option FieldVal) : Bool :=
  wellTypedB f v &&
  match v with
  | some (.vstr s) => goTrimSpace s == s && !s.contains '\n' && !s.contains '\r'
  | some (.vtime t) => decide (timeValid t) && t.nsec == 0
  | _ => true

/-- The record fits the schema field for field. -/
def recordTypedB (schema : Schema) (r : Record) : Bool :=
  r.length == schema.length && (schema.zip r).all (fun p => wellTypedB p.1 p.2)

/-- Well-typed record with line-break-free strings. -/
def recordCleanB (schema : Schema) (r : Record) : Bool :=
  recordTypedB schema r && (schema.zip r).all (fun p => cleanValB p.2)

/-- Record whose every field round-trips. -/
def recordRTB (schema : Schema) (r : Record) : Bool :=
  r.length == schema.length && (schema.zip r).all (fun p => rtValB p.1 p.2)

/-- Maximum of a list of naturals (0 if empty). -/
def listMax (l : List Nat) : Nat := l.foldr max 0

/-- The width-pass contributions to the column `name`: `getFieldLen` of
every cell of every non-nil element whose field resolves to `name`. -/
def colFieldLens (schema : Schema) (elems : List (Option Record)) (name : Str) : List Nat :=
  ((elems.filterMap id).map
    (fun r => (schema.zip r).filterMap
      (fun fr => if fr.1.name = name then some (getFieldLen fr.2) else none))).flatten

/-- The logical (rune) length of a cell value's rendering, nil rendering
nothing — the measure the specification words ascribe to pass 1. -/
def specRenderLen : Option FieldVal → Nat
  | none => 0
  | some x => (renderVal x).length

/-- Modelled from the spec: the column width the claim asserts — the
maximum of the column name's length and the rendered (logical character)
length of that column's cell over every record. -/
def specColumnWidth (schema : Schema) (elems : List (Option Record)) (name : Str) : Nat :=
  max name.length (listMax
    (((elems.filterMap id).map
      (fun r => (schema.zip r).filterMap
        (fun fr => if fr.1.name = name then some (specRenderLen fr.2) else none))).flatten))

/-- Modelled from the spec: a target whose type is a (non-nil) pointer to
a slice of structs or of pointers to structs — the call shapes the claim
says are accepted. -/
def shapeValid : Option GoKind → Bool
  | some (.kPtr (.kSlice (.kStruct _))) => true
  | some (.kPtr (.kSlice (.kPtr (.kStruct _)))) => true
  | _ => false

/-- The column spans the emitted header induces: one block per (name,
width) pair, each span ending one past the separating space (none after
the last block). -/
def expectedCols : List (Str × Nat) → Nat → List FwColumn
  | [], _ => []
  | (n, w) :: rest, off =>
    let bl := (padRight n w).length
    ⟨n, off, off + bl + (if rest = [] then 0 else 1)⟩ :: expectedCols rest (off + bl + 1)

/-- The (name, final width) pairs of a schema under a width map. -/
def schemaPairs (schema : Schema) (m : CWI) : List (Str × Nat) :=
  schema.map (fun f => (f.name, cwmGet m f.name))

/-- The emitted text of a run of leading cells, each followed by the
single separating space. -/
def prefixStrS (xs : List Str) : Str :=
  (xs.map (fun x => x ++ [' '])).flatten

/-- The emitted text of a run of leading columns: each block padded to its
width and followed by the single separating space. -/
def prefixStr (ps : List (Str × Nat)) : Str :=
  (ps.map (fun p => padRight p.1 p.2 ++ [' '])).flatten

/-- A data line the scan loop accepts no matter what the carried
`fieldsIndex` map holds on entry: right length, and `createObject` of the
refreshed map yields `r`. -/
def goodLine (schema : Schema) (hdrLen : Nat) (cols : List FwColumn)
    (l : Str) (r : Record) : Prop :=
  l.length = hdrLen ∧
  ∀ m : MapSS, createObject (insertColumns m cols l) schema = .ok r

end Fwencoder

namespace Fwencoder

/-! ### String-level lemmas -/

theorem spaces_length (n : Nat) : (spaces n).length = n := by
  simp [spaces]

theorem mem_spaces {c : Char} {n : Nat} (h : c ∈ spaces n) : c = ' ' :=
  List.eq_of_mem_replicate h

theorem padRight_length (s : Str) (w : Nat) :
    (padRight s w).length = max w s.length := by
  simp [padRight, spaces]
  omega

theorem charBytes_pos (c : Char) : 1 ≤ charBytes c := by
  unfold charBytes
  split
  · omega
  · split
    · omega
    · split <;> omega

theorem length_le_utf8Len (s : Str) : s.length ≤ utf8Len s := by
  induction s with
  | nil => simp [utf8Len]
  | cons c t ih =>
    have := charBytes_pos c
    simp only [utf8Len, List.map_cons, List.sum_cons, List.length_cons]
    simp only [utf8Len] at ih
    omega

theorem dropWhile_of_all_false {p : Char → Bool} {l : Str}
    (h : ∀ c ∈ l, p c = false) : l.dropWhile p = l := by
  induction l with
  | nil => rfl
  | cons c t ih =>
    rw [List.dropWhile_cons]
    simp [h c (by simp), ih fun x hx => h x (by simp [hx])]

theorem dropWhile_of_all_true {p : Char → Bool} {l : Str}
    (h : ∀ c ∈ l, p c = true) : l.dropWhile p = [] := by
  induction l with
  | nil => rfl
  | cons c t ih =>
    rw [List.dropWhile_cons]
    simp [h c (by simp), ih fun x hx => h x (by simp [hx])]

theorem dropWhile_append_all {p : Char → Bool} {a b : Str}
    (h : ∀ c ∈ a, p c = true) : (a ++ b).dropWhile p = b.dropWhile p := by
  rw [List.dropWhile_append, dropWhile_of_all_true h]
  simp

theorem length_dropWhile_le (p : Char → Bool) (l : Str) :
    (l.dropWhile p).length ≤ l.length := by
  induction l with
  | nil => simp
  | cons c t ih =>
    rw [List.dropWhile_cons]
    split <;> simp <;> omega

theorem dropWhile_length_eq {p : Char → Bool} {l : Str}
    (h : (l.dropWhile p).length = l.length) : l.dropWhile p = l := by
  induction l with
  | nil => rfl
  | cons c t ih =>
    rw [List.dropWhile_cons] at h ⊢
    by_cases hpc : p c = true
    · rw [if_pos hpc] at h
      have := length_dropWhile_le p t
      simp at h
      omega
    · rw [if_neg hpc]

theorem trimTrailing_length_le (s : Str) : (trimTrailing s).length ≤ s.length := by
  unfold trimTrailing
  simpa using length_dropWhile_le isGoSpace s.reverse

theorem trimTrailing_append_spaces (v : Str) (k : Nat) :
    trimTrailing (v ++ spaces k) = trimTrailing v := by
  unfold trimTrailing
  rw [List.reverse_append]
  rw [dropWhile_append_all]
  intro c hc
  rw [List.mem_reverse] at hc
  simp [mem_spaces hc, isGoSpace]

theorem goTrimSpace_parts {s : Str} (h : goTrimSpace s = s) :
    s.dropWhile isGoSpace = s ∧ trimTrailing s = s := by
  unfold goTrimSpace at h
  have h1 : s.dropWhile isGoSpace = s := by
    apply dropWhile_length_eq
    have hle1 := trimTrailing_length_le (s.dropWhile isGoSpace)
    have hle2 := length_dropWhile_le isGoSpace s
    have : (trimTrailing (s.dropWhile isGoSpace)).length = s.length := by rw [h]
    omega
  refine ⟨h1, ?_⟩
  rwa [h1] at h

theorem goTrimSpace_append_spaces {v : Str} (hv : goTrimSpace v = v) (k : Nat) :
    goTrimSpace (v ++ spaces k) = v := by
  obtain ⟨h1, h2⟩ := goTrimSpace_parts hv
  cases v with
  | nil =>
    simp only [List.nil_append]
    unfold goTrimSpace
    rw [dropWhile_of_all_true]
    · rfl
    · intro c hc
      simp [mem_spaces hc, isGoSpace]
  | cons c t =>
    have hc : isGoSpace c = false := by
      rw [List.dropWhile_cons] at h1
      by_contra hcc
      simp only [Bool.not_eq_false] at hcc
      rw [if_pos hcc] at h1
      have := length_dropWhile_le isGoSpace t
      have : (List.dropWhile isGoSpace t).length = (c :: t).length := by rw [h1]
      simp at this
      omega
    unfold goTrimSpace
    rw [List.cons_append, List.dropWhile_cons, if_neg (by simp [hc])]
    rw [← List.cons_append, trimTrailing_append_spaces]
    exact h2

theorem noSpace_goTrimSpace {v : Str} (h : ∀ c ∈ v, isGoSpace c = false) :
    goTrimSpace v = v := by
  unfold goTrimSpace
  rw [dropWhile_of_all_false h]
  unfold trimTrailing
  rw [dropWhile_of_all_false fun c hc => h c (List.mem_reverse.mp hc)]
  simp

theorem noSpace_trim_spaces {v : Str} (h : ∀ c ∈ v, isGoSpace c = false) (k : Nat) :
    goTrimSpace (v ++ spaces k) = v :=
  goTrimSpace_append_spaces (noSpace_goTrimSpace h) k

theorem splitNL_ne_nil (s : Str) : splitNL s ≠ [] := by
  induction s with
  | nil => simp [splitNL]
  | cons c rest ih =>
    unfold splitNL
    cases hB : splitNL rest with
    | nil => exact absurd hB ih
    | cons l ls =>
      by_cases hc : c = '\n' <;> simp [hB, hc]

theorem splitNL_no_nl {A : Str} (h : '\n' ∉ A) : splitNL A = [A] := by
  induction A with
  | nil => rfl
  | cons c t ih =>
    have hc : c ≠ '\n' := fun hh => h (by simp [hh])
    have ht := ih fun hh => h (by simp [hh])
    unfold splitNL
    rw [ht]
    simp [hc]

theorem splitNL_append {A B : Str} (h : '\n' ∉ A) :
    splitNL (A ++ '\n' :: B) = A :: splitNL B := by
  induction A with
  | nil =>
    simp only [List.nil_append]
    rw [splitNL]
    cases hB : splitNL B with
    | nil => exact absurd hB (splitNL_ne_nil B)
    | cons l ls => simp
  | cons c t ih =>
    have hc : c ≠ '\n' := fun hh => h (by simp [hh])
    have ht := ih fun hh => h (by simp [hh])
    show splitNL (c :: (t ++ '\n' :: B)) = (c :: t) :: splitNL B
    rw [splitNL, ht]
    simp [hc]

theorem joinSep_length (sep : Str) (parts : List Str) :
    (joinSep sep parts).length =
      (parts.map List.length).sum + sep.length * (parts.length - 1) := by
  induction parts with
  | nil => simp [joinSep]
  | cons x rest ih =>
    cases rest with
    | nil => simp [joinSep]
    | cons y t =>
      show (x ++ sep ++ joinSep sep (y :: t)).length = _
      simp only [List.length_append, ih, List.map_cons, List.sum_cons,
        List.length_cons, Nat.add_sub_cancel]
      ring

theorem splitNL_joinSep {rows : List Str} (hne : rows ≠ [])
    (h : ∀ r ∈ rows, '\n' ∉ r) : splitNL (joinSep ['\n'] rows) = rows := by
  induction rows with
  | nil => exact absurd rfl hne
  | cons x rest ih =>
    cases rest with
    | nil => exact splitNL_no_nl (h x (by simp))
    | cons y t =>
      rw [show joinSep ['\n'] (x :: y :: t) = x ++ '\n' :: joinSep ['\n'] (y :: t) by
        simp [joinSep]]
      rw [splitNL_append (h x (by simp))]
      rw [ih (by simp) fun r hr => h r (by simp [hr])]

theorem dropCR_of_no_cr {s : Str} (h : '\r' ∉ s) : dropCR s = s := by
  unfold dropCR
  split
  · next hl =>
    exfalso
    exact h (List.mem_of_mem_getLast? hl)
  · rfl

theorem map_dropCR_id {rows : List Str} (h : ∀ r ∈ rows, '\r' ∉ r) :
    rows.map dropCR = rows := by
  induction rows with
  | nil => rfl
  | cons x t ih =>
    rw [List.map_cons, dropCR_of_no_cr (h x (by simp)),
      ih fun r hr => h r (by simp [hr])]

theorem goScanLines_header_rows {hdr : Str} {rows : List Str}
    (hh : '\n' ∉ hdr ∧ '\r' ∉ hdr) (hrne : rows ≠ [])
    (hr : ∀ r ∈ rows, '\n' ∉ r ∧ '\r' ∉ r) (hnonempty : ∀ r ∈ rows, r ≠ []) :
    goScanLines (hdr ++ '\n' :: joinSep ['\n'] rows) = hdr :: rows := by
  obtain ⟨r0, rt, rfl⟩ : ∃ r0 rt, rows = r0 :: rt := by
    cases rows with
    | nil => exact absurd rfl hrne
    | cons r0 rt => exact ⟨r0, rt, rfl⟩
  unfold goScanLines stripLastEmpty
  rw [splitNL_append hh.1, splitNL_joinSep hrne fun r hrm => (hr r hrm).1]
  have hlast : (hdr :: r0 :: rt).getLast? ≠ some [] := by
    rw [List.getLast?_cons_cons]
    intro hcontra
    exact hnonempty _ (List.mem_of_mem_getLast? hcontra) rfl
  rw [if_neg hlast]
  rw [List.map_cons, dropCR_of_no_cr hh.2, map_dropCR_id fun r hrm => (hr r hrm).2]

theorem goScanLines_header_only {hdr : Str}
    (hh : '\n' ∉ hdr ∧ '\r' ∉ hdr) :
    goScanLines (hdr ++ ['\n']) = [hdr] := by
  unfold goScanLines stripLastEmpty
  have : (hdr ++ ['\n']) = hdr ++ '\n' :: [] := rfl
  rw [this, splitNL_append hh.1]
  simp [splitNL, dropCR_of_no_cr hh.2]

end Fwencoder

namespace Fwencoder

/-! ### Decimal rendering and parsing lemmas -/

theorem digitChar_toNat {d : Nat} (h : d < 10) : (digitChar d).toNat = 48 + d := by
  unfold digitChar
  interval_cases d <;> decide

theorem isDigitCh_digitChar {d : Nat} (h : d < 10) : isDigitCh (digitChar d) = true := by
  simp [isDigitCh, digitChar_toNat h]
  omega

theorem digitVal_digitChar {d : Nat} (h : d < 10) : digitVal (digitChar d) = d := by
  simp [digitVal, digitChar_toNat h]

theorem natToDigitsAux_congr {f1 f2 n : Nat} (h1 : n < f1) (h2 : n < f2) :
    natToDigitsAux f1 n = natToDigitsAux f2 n := by
  induction f1 generalizing f2 n with
  | zero => omega
  | succ a ih =>
    cases f2 with
    | zero => omega
    | succ b =>
      show natToDigitsAux (a + 1) n = natToDigitsAux (b + 1) n
      unfold natToDigitsAux
      by_cases h : n < 10
      · simp [h]
      · have hd : n / 10 < n := Nat.div_lt_self (by omega) (by omega)
        simp only [if_neg h]
        rw [@ih b (n / 10) (by omega) (by omega)]

theorem natToDigits_unfold (n : Nat) :
    natToDigits n =
      if n < 10 then [digitChar n]
      else natToDigits (n / 10) ++ [digitChar (n % 10)] := by
  unfold natToDigits
  conv_lhs => rw [natToDigitsAux]
  by_cases h : n < 10
  · simp [h]
  · have hd : n / 10 < n := Nat.div_lt_self (by omega) (by omega)
    simp only [if_neg h]
    rw [@natToDigitsAux_congr n (n / 10 + 1) (n / 10) (by omega) (by omega)]

theorem natToDigits_all_digit (n : Nat) : ∀ c ∈ natToDigits n, isDigitCh c = true := by
  induction n using Nat.strong_induction_on with
  | _ n ih =>
    rw [natToDigits_unfold]
    by_cases h : n < 10
    · simp only [if_pos h, List.mem_singleton]
      rintro c rfl
      exact isDigitCh_digitChar h
    · have hd : n / 10 < n := Nat.div_lt_self (by omega) (by omega)
      simp only [if_neg h, List.mem_append, List.mem_singleton]
      rintro c (hc | rfl)
      · exact ih _ hd c hc
      · exact isDigitCh_digitChar (Nat.mod_lt _ (by omega))

theorem natToDigits_ne_nil (n : Nat) : natToDigits n ≠ [] := by
  rw [natToDigits_unfold]
  by_cases h : n < 10 <;> simp [h]

theorem parseDigitsAux_cons (c : Char) (t : Str) (acc : Nat) :
    parseDigitsAux (c :: t) acc =
      if isDigitCh c = true then parseDigitsAux t (acc * 10 + digitVal c)
      else none := rfl

theorem parseDigitsAux_append (xs ys : Str) (acc : Nat) :
    parseDigitsAux (xs ++ ys) acc =
      match parseDigitsAux xs acc with
      | none => none
      | some a => parseDigitsAux ys a := by
  induction xs generalizing acc with
  | nil => simp [parseDigitsAux]
  | cons c t ih =>
    show parseDigitsAux (c :: (t ++ ys)) acc = _
    rw [parseDigitsAux_cons, parseDigitsAux_cons]
    by_cases hc : isDigitCh c = true
    · rw [if_pos hc, if_pos hc, ih]
    · rw [if_neg hc, if_neg hc]

theorem parseDigitsAux_natToDigits (n : Nat) :
    ∀ acc, parseDigitsAux (natToDigits n) acc =
      some (acc * 10 ^ (natToDigits n).length + n) := by
  induction n using Nat.strong_induction_on with
  | _ n ih =>
    intro acc
    rw [natToDigits_unfold]
    by_cases h : n < 10
    · simp only [if_pos h]
      unfold parseDigitsAux
      rw [if_pos (isDigitCh_digitChar h)]
      unfold parseDigitsAux
      rw [digitVal_digitChar h]
      simp
    · have hd : n / 10 < n := Nat.div_lt_self (by omega) (by omega)
      have hm : n % 10 < 10 := Nat.mod_lt _ (by omega)
      simp only [if_neg h]
      rw [parseDigitsAux_append, ih _ hd acc]
      show parseDigitsAux [digitChar (n % 10)]
        (acc * 10 ^ (natToDigits (n / 10)).length + n / 10) = _
      rw [parseDigitsAux_cons, if_pos (isDigitCh_digitChar hm), digitVal_digitChar hm]
      show some _ = _
      congr 1
      simp only [List.length_append, List.length_singleton]
      rw [pow_succ]
      have hdm : n / 10 * 10 + n % 10 = n := by omega
      calc (acc * 10 ^ (natToDigits (n / 10)).length + n / 10) * 10 + n % 10
          = acc * (10 ^ (natToDigits (n / 10)).length * 10) + (n / 10 * 10 + n % 10) := by
            ring
        _ = acc * (10 ^ (natToDigits (n / 10)).length * 10) + n := by rw [hdm]

theorem parseDigits_natToDigits (n : Nat) : parseDigits (natToDigits n) = some n := by
  cases h : natToDigits n with
  | nil => exact absurd h (natToDigits_ne_nil n)
  | cons c t =>
    show parseDigitsAux (c :: t) 0 = some n
    rw [← h, parseDigitsAux_natToDigits]
    simp

theorem digit_ne_sign {c : Char} (h : isDigitCh c = true) : c ≠ '+' ∧ c ≠ '-' := by
  simp only [isDigitCh, Bool.and_eq_true, decide_eq_true_eq] at h
  constructor <;> rintro rfl <;> simp_all <;> omega

theorem parseIntSyntax_cons (c : Char) (t : Str) :
    parseIntSyntax (c :: t) =
      if c = '+' then (parseDigits t).map Int.ofNat
      else if c = '-' then (parseDigits t).map (fun n => -(n : Int))
      else (parseDigits (c :: t)).map Int.ofNat := rfl

theorem parseIntSyntax_format (v : Int) : parseIntSyntax (goFormatInt v) = some v := by
  by_cases hv : v < 0
  · unfold goFormatInt
    rw [if_pos hv, parseIntSyntax_cons]
    rw [if_neg (by decide), if_pos rfl, parseDigits_natToDigits]
    simp
    omega
  · unfold goFormatInt
    rw [if_neg hv]
    cases h : natToDigits v.toNat with
    | nil => exact absurd h (natToDigits_ne_nil _)
    | cons c t =>
      have hc : isDigitCh c = true :=
        natToDigits_all_digit v.toNat c (by rw [h]; simp)
      obtain ⟨h1, h2⟩ := digit_ne_sign hc
      rw [parseIntSyntax_cons, if_neg h1, if_neg h2, ← h, parseDigits_natToDigits]
      simp
      omega

theorem goParseInt64_format {v : Int} (h : -(2 ^ 63) ≤ v ∧ v < 2 ^ 63) :
    goParseInt64 (goFormatInt v) = some v := by
  unfold goParseInt64
  rw [parseIntSyntax_format]
  show (if -(2 ^ 63) ≤ v ∧ v < 2 ^ 63 then some v else none) = some v
  rw [if_pos h]

theorem goParseUint64_format {v : Nat} (h : v < 2 ^ 64) :
    goParseUint64 (natToDigits v) = some v := by
  unfold goParseUint64
  rw [parseDigits_natToDigits]
  show (if v < 2 ^ 64 then some v else none) = some v
  rw [if_pos h]

theorem isGoSpace_false_of_range {c : Char} (h1 : 33 ≤ c.toNat) (h2 : c.toNat ≤ 126) :
    isGoSpace c = false := by
  have hd : ∀ d : Char, d.toNat < 33 ∨ 126 < d.toNat → decide (c = d) = false := by
    intro d hdd
    apply decide_eq_false
    rintro rfl
    omega
  simp only [isGoSpace, Bool.or_eq_false_iff]
  refine ⟨⟨⟨⟨⟨⟨⟨?_, ?_⟩, ?_⟩, ?_⟩, ?_⟩, ?_⟩, ?_⟩, ?_⟩
  · exact hd ' ' (by left; decide)
  · exact hd '\t' (by left; decide)
  · exact hd '\n' (by left; decide)
  · exact hd (Char.ofNat 11) (by left; decide)
  · exact hd (Char.ofNat 12) (by left; decide)
  · exact hd '\r' (by left; decide)
  · exact hd (Char.ofNat 133) (by right; decide)
  · exact hd (Char.ofNat 160) (by right; decide)

theorem digit_no_space {c : Char} (h : isDigitCh c = true) : isGoSpace c = false := by
  simp only [isDigitCh, Bool.and_eq_true, decide_eq_true_eq] at h
  exact isGoSpace_false_of_range (by omega) (by omega)

theorem goFormatInt_no_space (v : Int) : ∀ c ∈ goFormatInt v, isGoSpace c = false := by
  intro c hc
  unfold goFormatInt at hc
  split at hc
  · rcases List.mem_cons.mp hc with rfl | hmem
    · exact isGoSpace_false_of_range (by decide) (by decide)
    · exact digit_no_space (natToDigits_all_digit _ c hmem)
  · exact digit_no_space (natToDigits_all_digit _ c hc)

theorem natToDigits_no_space (n : Nat) : ∀ c ∈ natToDigits n, isGoSpace c = false :=
  fun c hc => digit_no_space (natToDigits_all_digit n c hc)

theorem not_space_ne_nl {c : Char} (h : isGoSpace c = false) : c ≠ '\n' ∧ c ≠ '\r' := by
  constructor <;> rintro rfl <;> simp [isGoSpace] at h

end Fwencoder

namespace Fwencoder

/-! ### Time rendering and parsing lemmas -/

theorem natToDigits_lt10 {n : Nat} (h : n < 10) : natToDigits n = [digitChar n] := by
  rw [natToDigits_unfold, if_pos h]

theorem natToDigits_two {n : Nat} (h1 : 10 ≤ n) (h2 : n < 100) :
    natToDigits n = [digitChar (n / 10), digitChar (n % 10)] := by
  rw [natToDigits_unfold, if_neg (by omega), natToDigits_lt10 (by omega)]
  rfl

theorem natToDigits_three {n : Nat} (h1 : 100 ≤ n) (h2 : n < 1000) :
    natToDigits n = [digitChar (n / 100), digitChar (n / 10 % 10), digitChar (n % 10)] := by
  rw [natToDigits_unfold, if_neg (by omega), natToDigits_two (by omega) (by omega)]
  rw [Nat.div_div_eq_div_mul]
  rfl

theorem natToDigits_four {n : Nat} (h1 : 1000 ≤ n) (h2 : n < 10000) :
    natToDigits n = [digitChar (n / 1000), digitChar (n / 100 % 10),
      digitChar (n / 10 % 10), digitChar (n % 10)] := by
  rw [natToDigits_unfold, if_neg (by omega), natToDigits_three (by omega) (by omega)]
  rw [Nat.div_div_eq_div_mul, Nat.div_div_eq_div_mul]
  rfl

theorem pad2_eq {n : Nat} (h : n ≤ 99) :
    pad2 n = [digitChar (n / 10), digitChar (n % 10)] := by
  unfold pad2
  by_cases hn : n < 10
  · rw [if_pos hn, natToDigits_lt10 hn]
    have h10 : n / 10 = 0 := by omega
    have hm : n % 10 = n := by omega
    rw [h10, hm]
    rfl
  · rw [if_neg hn, natToDigits_two (by omega) (by omega)]

theorem pad4_eq {n : Nat} (h : n ≤ 9999) :
    pad4 n = [digitChar (n / 1000), digitChar (n / 100 % 10),
      digitChar (n / 10 % 10), digitChar (n % 10)] := by
  unfold pad4
  by_cases h1 : n < 10
  · rw [if_pos h1, natToDigits_lt10 h1]
    have e1 : n / 1000 = 0 := by omega
    have e2 : n / 100 % 10 = 0 := by omega
    have e3 : n / 10 % 10 = 0 := by omega
    have e4 : n % 10 = n := by omega
    rw [e1, e2, e3, e4]
    rfl
  · rw [if_neg h1]
    by_cases h2 : n < 100
    · rw [if_pos h2, natToDigits_two (by omega) (by omega)]
      have e1 : n / 1000 = 0 := by omega
      have e2 : n / 100 % 10 = 0 := by omega
      have e3 : n / 10 % 10 = n / 10 := by omega
      rw [e1, e2, e3]
      rfl
    · rw [if_neg h2]
      by_cases h3 : n < 1000
      · rw [if_pos h3, natToDigits_three (by omega) (by omega)]
        have e1 : n / 1000 = 0 := by omega
        have e2 : n / 100 % 10 = n / 100 := by omega
        rw [e1, e2]
        rfl
      · rw [if_neg h3, natToDigits_four (by omega) (by omega)]

theorem rfc3339Render_eq {t : GoTime} (h : timeValid t) :
    rfc3339Render t =
      [digitChar (t.year / 1000), digitChar (t.year / 100 % 10),
       digitChar (t.year / 10 % 10), digitChar (t.year % 10), '-',
       digitChar (t.month / 10), digitChar (t.month % 10), '-',
       digitChar (t.day / 10), digitChar (t.day % 10), 'T',
       digitChar (t.hour / 10), digitChar (t.hour % 10), ':',
       digitChar (t.minute / 10), digitChar (t.minute % 10), ':',
       digitChar (t.second / 10), digitChar (t.second % 10), 'Z'] := by
  obtain ⟨hy, hm1, hm2, hd1, hd2, hh, hmi, hs⟩ := h
  have hdm : t.day ≤ 31 := by
    have : daysIn t.year t.month ≤ 31 := by
      unfold daysIn
      split
      · split <;> omega
      · split <;> omega
    omega
  unfold rfc3339Render
  rw [pad4_eq hy, pad2_eq (by omega), pad2_eq (by omega), pad2_eq (by omega),
    pad2_eq (by omega), pad2_eq (by omega)]
  rfl

theorem read2_digitChar {a b : Nat} (ha : a < 10) (hb : b < 10) :
    read2 (digitChar a) (digitChar b) = some (a * 10 + b) := by
  unfold read2
  rw [if_pos ⟨isDigitCh_digitChar ha, isDigitCh_digitChar hb⟩]
  rw [digitVal_digitChar ha, digitVal_digitChar hb]

theorem read4_digitChar {a b c d : Nat} (ha : a < 10) (hb : b < 10)
    (hc : c < 10) (hd : d < 10) :
    read4 (digitChar a) (digitChar b) (digitChar c) (digitChar d) =
      some (((a * 10 + b) * 10 + c) * 10 + d) := by
  unfold read4
  rw [if_pos ⟨isDigitCh_digitChar ha, isDigitCh_digitChar hb,
    isDigitCh_digitChar hc, isDigitCh_digitChar hd⟩]
  rw [digitVal_digitChar ha, digitVal_digitChar hb, digitVal_digitChar hc,
    digitVal_digitChar hd]

theorem rfc3339_roundtrip {t : GoTime} (h : timeValid t) :
    rfc3339Parse (rfc3339Render t) =
      some ⟨t.year, t.month, t.day, t.hour, t.minute, t.second, 0⟩ := by
  obtain ⟨hy, hm1, hm2, hd1, hd2, hh, hmi, hs⟩ := h
  have hdm : t.day ≤ 31 := by
    have : daysIn t.year t.month ≤ 31 := by
      unfold daysIn
      split
      · split <;> omega
      · split <;> omega
    omega
  rw [rfc3339Render_eq ⟨hy, hm1, hm2, hd1, hd2, hh, hmi, hs⟩]
  simp only [rfc3339Parse]
  rw [read4_digitChar (by omega) (by omega) (by omega) (by omega),
    read2_digitChar (by omega) (by omega), read2_digitChar (by omega) (by omega),
    read2_digitChar (by omega) (by omega), read2_digitChar (by omega) (by omega),
    read2_digitChar (by omega) (by omega)]
  have ey : ((t.year / 1000 * 10 + t.year / 100 % 10) * 10 + t.year / 10 % 10) * 10 +
      t.year % 10 = t.year := by omega
  have emo : t.month / 10 * 10 + t.month % 10 = t.month := by omega
  have ed : t.day / 10 * 10 + t.day % 10 = t.day := by omega
  have eh : t.hour / 10 * 10 + t.hour % 10 = t.hour := by omega
  have emi : t.minute / 10 * 10 + t.minute % 10 = t.minute := by omega
  have es : t.second / 10 * 10 + t.second % 10 = t.second := by omega
  rw [ey, emo, ed, eh, emi, es]
  show (if 1 ≤ t.month ∧ t.month ≤ 12 ∧ 1 ≤ t.day ∧ t.day ≤ daysIn t.year t.month ∧
      t.hour ≤ 23 ∧ t.minute ≤ 59 ∧ t.second ≤ 59 then
      some (GoTime.mk t.year t.month t.day t.hour t.minute t.second 0) else none) =
    some ⟨t.year, t.month, t.day, t.hour, t.minute, t.second, 0⟩
  rw [if_pos ⟨hm1, hm2, hd1, hd2, hh, hmi, hs⟩]

theorem rfc3339Render_no_space {t : GoTime} (h : timeValid t) :
    ∀ c ∈ rfc3339Render t, isGoSpace c = false := by
  intro c hc
  obtain ⟨hy, hm1, hm2, hd1, hd2, hh, hmi, hs⟩ := h
  have hdm : t.day ≤ 31 := by
    have : daysIn t.year t.month ≤ 31 := by
      unfold daysIn
      split
      · split <;> omega
      · split <;> omega
    omega
  rw [rfc3339Render_eq ⟨hy, hm1, hm2, hd1, hd2, hh, hmi, hs⟩] at hc
  have hdig : ∀ d : Nat, d < 10 → isGoSpace (digitChar d) = false := by
    intro d hd
    exact digit_no_space (isDigitCh_digitChar hd)
  simp only [List.mem_cons, List.not_mem_nil, or_false] at hc
  have hpunct : ∀ x : Char, x = '-' ∨ x = 'T' ∨ x = ':' ∨ x = 'Z' →
      isGoSpace x = false := by
    rintro x (rfl | rfl | rfl | rfl) <;> decide
  rcases hc with rfl | rfl | rfl | rfl | rfl | rfl | rfl | rfl | rfl | rfl |
    rfl | rfl | rfl | rfl | rfl | rfl | rfl | rfl | rfl | rfl
  · exact hdig _ (by omega)
  · exact hdig _ (by omega)
  · exact hdig _ (by omega)
  · exact hdig _ (by omega)
  · exact hpunct _ (by tauto)
  · exact hdig _ (by omega)
  · exact hdig _ (by omega)
  · exact hpunct _ (by tauto)
  · exact hdig _ (by omega)
  · exact hdig _ (by omega)
  · exact hpunct _ (by tauto)
  · exact hdig _ (by omega)
  · exact hdig _ (by omega)
  · exact hpunct _ (by tauto)
  · exact hdig _ (by omega)
  · exact hdig _ (by omega)
  · exact hpunct _ (by tauto)
  · exact hdig _ (by omega)
  · exact hdig _ (by omega)
  · exact hpunct _ (by tauto)

end Fwencoder

namespace Fwencoder

/-! ### Map and width-index lemmas -/

theorem mapLookup_insert (m : MapSS) (k v k2 : Str) :
    mapLookup (mapInsert m k v) k2 = if k2 = k then some v else mapLookup m k2 := by
  induction m with
  | nil =>
    unfold mapInsert mapLookup
    by_cases h : k2 = k
    · subst h
      simp [List.find?]
    · simp only [List.find?]
      have : (k == k2) = false := by
        simp only [beq_eq_false_iff_ne, ne_eq]
        exact fun hh => h hh.symm
      simp [this, h]
  | cons p rest ih =>
    unfold mapInsert
    by_cases hp : p.1 == k
    · rw [if_pos hp]
      unfold mapLookup
      by_cases h : k2 = k
      · subst h
        simp [List.find?]
      · have hkk2 : (k == k2) = false := by
          simp only [beq_eq_false_iff_ne, ne_eq]
          exact fun hh => h hh.symm
        have hpk2 : (p.1 == k2) = false := by
          simp only [beq_iff_eq] at hp
          simp only [beq_eq_false_iff_ne, ne_eq, hp]
          exact fun hh => h hh.symm
        simp [List.find?, hkk2, hpk2, h]
    · rw [if_neg hp]
      show mapLookup (p :: mapInsert rest k v) k2 = _
      unfold mapLookup
      by_cases hpk2 : p.1 == k2
      · have h : k2 ≠ k := by
          simp only [beq_iff_eq] at hpk2
          subst hpk2
          simpa using hp
        simp [List.find?, hpk2, h]
      · simp only [List.find?, hpk2]
        exact ih

theorem mapLookup_nil (k : Str) : mapLookup [] k = none := rfl

theorem insertColumns_lookup_not_mem {cols : List FwColumn} {n : Str}
    (h : ∀ c ∈ cols, c.name ≠ n) (m : MapSS) (line : Str) :
    mapLookup (insertColumns m cols line) n = mapLookup m n := by
  induction cols generalizing m with
  | nil => rfl
  | cons c0 rest ih =>
    show mapLookup (insertColumns (mapInsert m c0.name _) rest line) n = _
    rw [ih fun c hc => h c (by simp [hc]), mapLookup_insert,
      if_neg fun hh => h c0 (by simp) hh.symm]

theorem insertColumns_lookup_indep {cols : List FwColumn} {n : Str}
    (hk : ∃ c ∈ cols, c.name = n) (m1 m2 : MapSS) (line : Str) :
    mapLookup (insertColumns m1 cols line) n =
      mapLookup (insertColumns m2 cols line) n := by
  induction cols generalizing m1 m2 with
  | nil => simp at hk
  | cons c0 rest ih =>
    show mapLookup (insertColumns (mapInsert m1 c0.name _) rest line) n =
      mapLookup (insertColumns (mapInsert m2 c0.name _) rest line) n
    by_cases hrest : ∃ c ∈ rest, c.name = n
    · exact ih hrest _ _
    · have hne : ∀ c ∈ rest, c.name ≠ n := by
        intro c hc
        exact fun hh => hrest ⟨c, hc, hh⟩
      rw [insertColumns_lookup_not_mem hne, insertColumns_lookup_not_mem hne,
        mapLookup_insert, mapLookup_insert]
      have hc0 : c0.name = n := by
        rcases hk with ⟨c, hc, hcn⟩
        rcases List.mem_cons.mp hc with rfl | hmem
        · exact hcn
        · exact absurd hcn (hne c hmem)
      rw [if_pos hc0.symm, if_pos hc0.symm]

theorem insertColumns_keys {cols : List FwColumn} {m : MapSS} {line : Str}
    (hm : ∀ k, mapLookup m k ≠ none → ∃ c ∈ cols, c.name = k) :
    ∀ k, mapLookup (insertColumns m cols line) k ≠ none → ∃ c ∈ cols, c.name = k := by
  intro k hk
  by_cases h : ∃ c ∈ cols, c.name = k
  · exact h
  · have hne : ∀ c ∈ cols, c.name ≠ k := fun c hc hh => h ⟨c, hc, hh⟩
    rw [insertColumns_lookup_not_mem hne] at hk
    exact hm k hk

theorem insertColumns_lookup_unique {cols : List FwColumn} {c : FwColumn}
    (hnd : (cols.map FwColumn.name).Nodup) (hc : c ∈ cols) (m : MapSS) (line : Str) :
    mapLookup (insertColumns m cols line) c.name =
      some ((line.drop c.start).take (c.stop - c.start)) := by
  induction cols generalizing m with
  | nil => simp at hc
  | cons c0 rest ih =>
    rcases List.mem_cons.mp hc with rfl | hmem
    · show mapLookup (insertColumns (mapInsert m c.name _) rest line) c.name = _
      have hne : ∀ c2 ∈ rest, c2.name ≠ c.name := by
        intro c2 hc2 hh
        simp only [List.map_cons, List.nodup_cons] at hnd
        exact hnd.1 (hh ▸ List.mem_map_of_mem FwColumn.name hc2)
      rw [insertColumns_lookup_not_mem hne, mapLookup_insert, if_pos rfl]
    · show mapLookup (insertColumns (mapInsert m c0.name _) rest line) c.name = _
      simp only [List.map_cons, List.nodup_cons] at hnd
      exact ih hnd.2 hmem _

theorem createObject_congr {schema : Schema} {m1 m2 : MapSS}
    (h : ∀ f ∈ schema, mapLookup m1 f.name = mapLookup m2 f.name) :
    createObject m1 schema = createObject m2 schema := by
  induction schema with
  | nil => rfl
  | cons f rest ih =>
    unfold createObject
    rw [h f (by simp), ih fun g hg => h g (by simp [hg])]

theorem cwmLookup_insert (m : CWI) (k : Str) (v : Nat) (k2 : Str) :
    cwmLookup (cwmInsert m k v) k2 = if k2 = k then some v else cwmLookup m k2 := by
  induction m with
  | nil =>
    unfold cwmInsert cwmLookup
    by_cases h : k2 = k
    · subst h
      simp [List.find?]
    · have : (k == k2) = false := by
        simp only [beq_eq_false_iff_ne, ne_eq]
        exact fun hh => h hh.symm
      simp [List.find?, this, h]
  | cons p rest ih =>
    unfold cwmInsert
    by_cases hp : p.1 == k
    · rw [if_pos hp]
      unfold cwmLookup
      by_cases h : k2 = k
      · subst h
        simp [List.find?]
      · have hkk2 : (k == k2) = false := by
          simp only [beq_eq_false_iff_ne, ne_eq]
          exact fun hh => h hh.symm
        have hpk2 : (p.1 == k2) = false := by
          simp only [beq_iff_eq] at hp
          simp only [beq_eq_false_iff_ne, ne_eq, hp]
          exact fun hh => h hh.symm
        simp [List.find?, hkk2, hpk2, h]
    · rw [if_neg hp]
      show cwmLookup (p :: cwmInsert rest k v) k2 = _
      unfold cwmLookup
      by_cases hpk2 : p.1 == k2
      · have h : k2 ≠ k := by
          simp only [beq_iff_eq] at hpk2
          subst hpk2
          simpa using hp
        simp [List.find?, hpk2, h]
      · simp only [List.find?, hpk2]
        exact ih

theorem cwmSet_eq (m : CWI) (n : Str) (w : Nat) :
    cwmSet m n w =
      match cwmLookup m n with
      | none => cwmInsert m n (max n.length w)
      | some o => if o < w then cwmInsert m n w else m := by
  unfold cwmSet
  cases cwmLookup m n with
  | none =>
    show (if n.length < w then cwmInsert m n w else cwmInsert m n n.length) = _
    split
    · next hlt => rw [show max n.length w = w by omega]
    · next hlt => rw [show max n.length w = n.length by omega]
  | some o => rfl

theorem cwmGet_set_ne {n n2 : Str} (h : n2 ≠ n) (m : CWI) (w : Nat) :
    cwmGet (cwmSet m n w) n2 = cwmGet m n2 := by
  rw [cwmSet_eq]
  cases hl : cwmLookup m n with
  | none =>
    show cwmGet (cwmInsert m n (max n.length w)) n2 = cwmGet m n2
    unfold cwmGet
    rw [cwmLookup_insert, if_neg h]
  | some o =>
    show cwmGet (if o < w then cwmInsert m n w else m) n2 = cwmGet m n2
    unfold cwmGet
    split
    · rw [cwmLookup_insert, if_neg h]
    · rfl

theorem cwmGet_set_self_none {m : CWI} {n : Str} (hl : cwmLookup m n = none)
    (w : Nat) : cwmGet (cwmSet m n w) n = max n.length w := by
  rw [cwmSet_eq, hl]
  show cwmGet (cwmInsert m n (max n.length w)) n = _
  unfold cwmGet
  rw [cwmLookup_insert, if_pos rfl]
  rfl

theorem cwmGet_set_self_some {m : CWI} {n : Str} {o : Nat}
    (hl : cwmLookup m n = some o) (w : Nat) :
    cwmGet (cwmSet m n w) n = max o w := by
  rw [cwmSet_eq, hl]
  show cwmGet (if o < w then cwmInsert m n w else m) n = max o w
  split
  · next hlt =>
    unfold cwmGet
    rw [cwmLookup_insert, if_pos rfl]
    simp only [Option.getD_some]
    omega
  · next hlt =>
    unfold cwmGet
    rw [hl]
    simp only [Option.getD_some]
    omega

theorem cwmGet_set_mono (m : CWI) (n n2 : Str) (w : Nat) :
    cwmGet m n2 ≤ cwmGet (cwmSet m n w) n2 := by
  by_cases h : n2 = n
  · subst h
    cases hl : cwmLookup m n2 with
    | none =>
      rw [cwmGet_set_self_none hl]
      simp [cwmGet, hl]
    | some o =>
      rw [cwmGet_set_self_some hl]
      simp only [cwmGet, hl, Option.getD_some]
      omega
  · rw [cwmGet_set_ne h]

theorem cwmGet_set_ge (m : CWI) (n : Str) (w : Nat) :
    w ≤ cwmGet (cwmSet m n w) n := by
  cases hl : cwmLookup m n with
  | none => rw [cwmGet_set_self_none hl]; omega
  | some o => rw [cwmGet_set_self_some hl]; omega

theorem cwmSeeded_nil : cwmSeeded [] := by
  intro n o h
  simp [cwmLookup, List.find?] at h

theorem cwmSeeded_set {m : CWI} (hm : cwmSeeded m) (n : Str) (w : Nat) :
    cwmSeeded (cwmSet m n w) := by
  intro n2 o h
  rw [cwmSet_eq] at h
  cases hl : cwmLookup m n with
  | none =>
    rw [hl] at h
    replace h : cwmLookup (cwmInsert m n (max n.length w)) n2 = some o := h
    rw [cwmLookup_insert] at h
    split at h
    · next hq =>
      subst hq
      cases h
      omega
    · exact hm _ _ h
  | some o2 =>
    rw [hl] at h
    replace h : cwmLookup (if o2 < w then cwmInsert m n w else m) n2 = some o := h
    split at h
    · rw [cwmLookup_insert] at h
      split at h
      · next hq =>
        subst hq
        cases h
        have := hm _ _ hl
        omega
      · exact hm _ _ h
    · exact hm _ _ h

theorem cwmGet_ge_name {m : CWI} (hm : cwmSeeded m) {n : Str}
    (h : cwmLookup m n ≠ none) : n.length ≤ cwmGet m n := by
  cases hl : cwmLookup m n with
  | none => exact absurd hl h
  | some o =>
    have := hm _ _ hl
    simp [cwmGet, hl]
    omega

theorem cwmSet_lookup_ne_none (m : CWI) (n : Str) (w : Nat) :
    cwmLookup (cwmSet m n w) n ≠ none := by
  rw [cwmSet_eq]
  cases hl : cwmLookup m n with
  | none =>
    show cwmLookup (cwmInsert m n (max n.length w)) n ≠ none
    rw [cwmLookup_insert, if_pos rfl]
    simp
  | some o =>
    show cwmLookup (if o < w then cwmInsert m n w else m) n ≠ none
    split
    · rw [cwmLookup_insert, if_pos rfl]
      simp
    · rw [hl]
      simp

theorem cwmSet_lookup_pres {m : CWI} {n2 : Str} (h : cwmLookup m n2 ≠ none)
    (n : Str) (w : Nat) : cwmLookup (cwmSet m n w) n2 ≠ none := by
  by_cases hq : n2 = n
  · subst hq
    exact cwmSet_lookup_ne_none m n2 w
  · rw [cwmSet_eq]
    cases hl : cwmLookup m n with
    | none =>
      show cwmLookup (cwmInsert m n (max n.length w)) n2 ≠ none
      rw [cwmLookup_insert, if_neg hq]
      exact h
    | some o =>
      show cwmLookup (if o < w then cwmInsert m n w else m) n2 ≠ none
      split
      · rw [cwmLookup_insert, if_neg hq]
        exact h
      · exact h

end Fwencoder

namespace Fwencoder

/-! ### Width pass characterization -/

theorem listMax_cons (x : Nat) (l : List Nat) : listMax (x :: l) = max x (listMax l) := rfl

theorem le_listMax_of_mem {x : Nat} {l : List Nat} (h : x ∈ l) : x ≤ listMax l := by
  induction l with
  | nil => simp at h
  | cons y t ih =>
    rw [listMax_cons]
    rcases List.mem_cons.mp h with rfl | hm
    · omega
    · have := ih hm
      omega

theorem listMax_append (a b : List Nat) : listMax (a ++ b) = max (listMax a) (listMax b) := by
  induction a with
  | nil => simp [listMax]
  | cons x t ih =>
    rw [List.cons_append, listMax_cons, listMax_cons, ih]
    omega

theorem rowContribs_cons (n : Str) (fr : FieldDesc × Option FieldVal)
    (rest : List (FieldDesc × Option FieldVal)) :
    rowContribs n (fr :: rest) =
      if fr.1.name = n then getFieldLen fr.2 :: rowContribs n rest
      else rowContribs n rest := by
  unfold rowContribs
  rw [List.filterMap_cons]
  split <;> rename_i hsplit <;> split at hsplit <;> simp_all

theorem rowFold_seeded {m : CWI} (hm : cwmSeeded m)
    (pairs : List (FieldDesc × Option FieldVal)) :
    cwmSeeded (pairs.foldl (fun m fr => cwmSet m fr.1.name (getFieldLen fr.2)) m) := by
  induction pairs generalizing m with
  | nil => exact hm
  | cons fr rest ih => exact ih (cwmSeeded_set hm _ _)

theorem rowFold_char {m : CWI} (hm : cwmSeeded m)
    (pairs : List (FieldDesc × Option FieldVal)) (n : Str) :
    cwmGet (pairs.foldl (fun m fr => cwmSet m fr.1.name (getFieldLen fr.2)) m) n =
      if rowContribs n pairs = [] then cwmGet m n
      else max (max (cwmGet m n) n.length) (listMax (rowContribs n pairs)) := by
  induction pairs generalizing m with
  | nil => simp [rowContribs]
  | cons fr rest ih =>
    rw [List.foldl_cons, rowContribs_cons]
    by_cases hn : fr.1.name = n
    · rw [if_pos hn]
      have hget : cwmGet (cwmSet m fr.1.name (getFieldLen fr.2)) n =
          max (max (cwmGet m n) n.length) (getFieldLen fr.2) := by
        subst hn
        cases hl : cwmLookup m fr.1.name with
        | none =>
          rw [cwmGet_set_self_none hl]
          simp only [cwmGet, hl, Option.getD_none]
          omega
        | some o =>
          rw [cwmGet_set_self_some hl]
          have := hm _ _ hl
          simp only [cwmGet, hl, Option.getD_some]
          omega
      rw [ih (cwmSeeded_set hm _ _)]
      by_cases hr : rowContribs n rest = []
      · rw [if_pos hr, hget, hr,
          if_neg (show getFieldLen fr.2 :: ([] : List Nat) ≠ [] by simp),
          listMax_cons]
        have hz : listMax [] = 0 := rfl
        rw [hz]
        omega
      · rw [if_neg hr, hget,
          if_neg (show getFieldLen fr.2 :: rowContribs n rest ≠ [] by simp),
          listMax_cons]
        omega
    · rw [if_neg hn]
      have hget : cwmGet (cwmSet m fr.1.name (getFieldLen fr.2)) n = cwmGet m n :=
        cwmGet_set_ne (fun hh => hn hh.symm) m _
      rw [ih (cwmSeeded_set hm _ _), hget]

theorem colFieldLens_nil (schema : Schema) (n : Str) :
    colFieldLens schema [] n = [] := rfl

theorem colFieldLens_cons_none (schema : Schema) (rest : List (Option Record)) (n : Str) :
    colFieldLens schema (none :: rest) n = colFieldLens schema rest n := by
  simp [colFieldLens]

theorem colFieldLens_cons_some (schema : Schema) (r : Record)
    (rest : List (Option Record)) (n : Str) :
    colFieldLens schema (some r :: rest) n =
      rowContribs n (schema.zip r) ++ colFieldLens schema rest n := by
  simp [colFieldLens, rowContribs]

theorem elemFold_seeded {m : CWI} (hm : cwmSeeded m) (schema : Schema)
    (elems : List (Option Record)) :
    cwmSeeded (elems.foldl (cwmAddElem schema) m) := by
  induction elems generalizing m with
  | nil => exact hm
  | cons e rest ih =>
    cases e with
    | none => exact ih hm
    | some r => exact ih (rowFold_seeded hm _)

theorem elemFold_char {m : CWI} (hm : cwmSeeded m) (schema : Schema)
    (elems : List (Option Record)) (n : Str) :
    cwmGet (elems.foldl (cwmAddElem schema) m) n =
      if colFieldLens schema elems n = [] then cwmGet m n
      else max (max (cwmGet m n) n.length) (listMax (colFieldLens schema elems n)) := by
  induction elems generalizing m with
  | nil => simp [colFieldLens]
  | cons e rest ih =>
    cases e with
    | none =>
      rw [List.foldl_cons, colFieldLens_cons_none]
      exact ih hm
    | some r =>
      rw [List.foldl_cons, colFieldLens_cons_some]
      show cwmGet (List.foldl (cwmAddElem schema) (cwmAddRecord schema m r) rest) n = _
      have hseed2 : cwmSeeded (cwmAddRecord schema m r) := rowFold_seeded hm (schema.zip r)
      rw [ih hseed2]
      have hrowchar : cwmGet (cwmAddRecord schema m r) n =
          if rowContribs n (schema.zip r) = [] then cwmGet m n
          else max (max (cwmGet m n) n.length) (listMax (rowContribs n (schema.zip r))) :=
        rowFold_char hm (schema.zip r) n
      rw [hrowchar]
      by_cases h1 : rowContribs n (schema.zip r) = []
      · rw [if_pos h1, h1, List.nil_append]
      · rw [if_neg h1]
        by_cases h2 : colFieldLens schema rest n = []
        · rw [if_pos h2, h2, List.append_nil, if_neg h1]
        · rw [if_neg h2,
            if_neg (show rowContribs n (schema.zip r) ++ colFieldLens schema rest n ≠ []
              by simp [h1]),
            listMax_append]
          omega

theorem makeCWI_char (schema : Schema) (elems : List (Option Record)) (n : Str) :
    cwmGet (makeColumnWidthIndex schema elems) n =
      if colFieldLens schema elems n = [] then 0
      else max n.length (listMax (colFieldLens schema elems n)) := by
  unfold makeColumnWidthIndex
  rw [elemFold_char cwmSeeded_nil]
  have h0 : cwmGet [] n = 0 := rfl
  rw [h0]
  split
  · rfl
  · omega

theorem mem_colFieldLens {schema : Schema} {elems : List (Option Record)}
    {r : Record} {fr : FieldDesc × Option FieldVal}
    (hr : some r ∈ elems) (hfr : fr ∈ schema.zip r) :
    getFieldLen fr.2 ∈ colFieldLens schema elems fr.1.name := by
  unfold colFieldLens
  rw [List.mem_flatten]
  refine ⟨rowContribs fr.1.name (schema.zip r), ?_, ?_⟩
  · rw [List.mem_map]
    exact ⟨r, List.mem_filterMap.mpr ⟨some r, hr, rfl⟩, rfl⟩
  · unfold rowContribs
    exact List.mem_filterMap.mpr ⟨fr, hfr, by rw [if_pos rfl]⟩

theorem makeCWI_ge_fieldLen {schema : Schema} {elems : List (Option Record)}
    {r : Record} {fr : FieldDesc × Option FieldVal}
    (hr : some r ∈ elems) (hfr : fr ∈ schema.zip r) :
    getFieldLen fr.2 ≤ cwmGet (makeColumnWidthIndex schema elems) fr.1.name := by
  rw [makeCWI_char]
  have hmem := mem_colFieldLens hr hfr
  have hne : colFieldLens schema elems fr.1.name ≠ [] := by
    intro hc
    rw [hc] at hmem
    simp at hmem
  rw [if_neg hne]
  have := le_listMax_of_mem hmem
  omega

theorem makeCWI_ge_name {schema : Schema} {elems : List (Option Record)}
    {r : Record} {fr : FieldDesc × Option FieldVal}
    (hr : some r ∈ elems) (hfr : fr ∈ schema.zip r) :
    fr.1.name.length ≤ cwmGet (makeColumnWidthIndex schema elems) fr.1.name := by
  rw [makeCWI_char]
  have hmem := mem_colFieldLens hr hfr
  have hne : colFieldLens schema elems fr.1.name ≠ [] := by
    intro hc
    rw [hc] at hmem
    simp at hmem
  rw [if_neg hne]
  omega

theorem makeCWI_skip_none (schema : Schema) (pre post : List (Option Record)) :
    makeColumnWidthIndex schema (pre ++ none :: post) =
      makeColumnWidthIndex schema (pre ++ post) := by
  unfold makeColumnWidthIndex
  rw [List.foldl_append, List.foldl_append, List.foldl_cons]
  rfl

end Fwencoder

namespace Fwencoder

/-! ### Pattern search characterization -/

theorem firstOccur_of_first {pat cs : Str} {k : Nat} (hp : isPrefixAt pat cs k)
    (hmin : ∀ j < k, ¬ isPrefixAt pat cs j) : firstOccur pat cs = some k := by
  induction cs generalizing k with
  | nil =>
    have hk0 : k = 0 := by
      by_contra hk
      exact hmin 0 (by omega) (by simpa [isPrefixAt] using hp)
    subst hk0
    unfold isPrefixAt at hp
    simp only [List.drop_nil] at hp
    unfold firstOccur
    rw [if_pos (List.isPrefixOf_iff_prefix.mpr hp)]
  | cons c rest ih =>
    cases k with
    | zero =>
      unfold isPrefixAt at hp
      simp only [List.drop_zero] at hp
      unfold firstOccur
      rw [if_pos (List.isPrefixOf_iff_prefix.mpr hp)]
    | succ k0 =>
      have hnot0 : ¬ pat <+: (c :: rest) := by
        have := hmin 0 (by omega)
        simpa [isPrefixAt] using this
      unfold firstOccur
      rw [if_neg fun hh => hnot0 (List.isPrefixOf_iff_prefix.mp hh)]
      have hrec : firstOccur pat rest = some k0 := by
        apply ih
        · simpa [isPrefixAt, List.drop_succ_cons] using hp
        · intro j hj hc
          exact hmin (j + 1) (by omega) (by simpa [isPrefixAt, List.drop_succ_cons] using hc)
      rw [hrec]
      rfl

theorem firstOccur_eq_some {pat cs : Str} {k : Nat} (h : firstOccur pat cs = some k) :
    isPrefixAt pat cs k ∧ ∀ j < k, ¬ isPrefixAt pat cs j := by
  induction cs generalizing k with
  | nil =>
    unfold firstOccur at h
    split at h
    · next hpre =>
      cases h
      exact ⟨by simpa [isPrefixAt] using List.isPrefixOf_iff_prefix.mp hpre,
        fun j hj => by omega⟩
    · cases h
  | cons c rest ih =>
    unfold firstOccur at h
    split at h
    · next hpre =>
      cases h
      exact ⟨by simpa [isPrefixAt] using List.isPrefixOf_iff_prefix.mp hpre,
        fun j hj => by omega⟩
    · next hpre =>
      cases hrec : firstOccur pat rest with
      | none => rw [hrec] at h; cases h
      | some k0 =>
        rw [hrec] at h
        replace h : some (k0 + 1) = some k := h
        cases h
        obtain ⟨h1, h2⟩ := ih hrec
        refine ⟨by simpa [isPrefixAt, List.drop_succ_cons] using h1, ?_⟩
        intro j hj
        cases j with
        | zero =>
          intro hc
          exact hpre (List.isPrefixOf_iff_prefix.mpr (by simpa [isPrefixAt] using hc))
        | succ j0 =>
          intro hc
          exact h2 j0 (by omega) (by simpa [isPrefixAt, List.drop_succ_cons] using hc)

theorem firstOccur_eq_none {pat cs : Str} (h : firstOccur pat cs = none) :
    ∀ j, ¬ isPrefixAt pat cs j := by
  induction cs with
  | nil =>
    unfold firstOccur at h
    split at h
    · cases h
    · next hpre =>
      intro j hc
      unfold isPrefixAt at hc
      simp only [List.drop_nil] at hc
      exact hpre (List.isPrefixOf_iff_prefix.mpr hc)
  | cons c rest ih =>
    unfold firstOccur at h
    split at h
    · cases h
    · next hpre =>
      cases hrec : firstOccur pat rest with
      | some k0 => rw [hrec] at h; cases h
      | none =>
        intro j
        cases j with
        | zero =>
          intro hc
          unfold isPrefixAt at hc
          simp only [List.drop_zero] at hc
          exact hpre (List.isPrefixOf_iff_prefix.mpr hc)
        | succ j0 =>
          intro hc
          exact ih hrec j0 (by simpa [isPrefixAt, List.drop_succ_cons] using hc)

theorem countSpaces_spaces (k : Nat) : countSpaces (spaces k) = k := by
  induction k with
  | zero => rfl
  | succ n ih =>
    show countSpaces (' ' :: spaces n) = n + 1
    unfold countSpaces at ih ⊢
    have hstep : (' ' :: spaces n).takeWhile (fun c => c = ' ') =
        ' ' :: (spaces n).takeWhile (fun c => c = ' ') := by
      simp [List.takeWhile_cons]
    rw [hstep, List.length_cons, ih]

theorem countSpaces_spaces_append {c : Char} (hc : c ≠ ' ') (k : Nat) (t : Str) :
    countSpaces (spaces k ++ c :: t) = k := by
  induction k with
  | zero =>
    show countSpaces (c :: t) = 0
    unfold countSpaces
    have hstep : (c :: t).takeWhile (fun c => c = ' ') = [] := by
      simp [List.takeWhile_cons, hc]
    rw [hstep]
    rfl
  | succ n ih =>
    show countSpaces (' ' :: (spaces n ++ c :: t)) = n + 1
    unfold countSpaces at ih ⊢
    have hstep : (' ' :: (spaces n ++ c :: t)).takeWhile (fun c => c = ' ') =
        ' ' :: (spaces n ++ c :: t).takeWhile (fun c => c = ' ') := by
      simp [List.takeWhile_cons]
    rw [hstep, List.length_cons, ih]

theorem isPrefixAt_get {pat cs : Str} {k : Nat} (h : isPrefixAt pat cs k)
    {j : Nat} (hj : j < pat.length) : cs[k + j]? = pat[j]? := by
  unfold isPrefixAt at h
  obtain ⟨t, ht⟩ := h
  rw [← List.getElem?_drop, ← ht, List.getElem?_append, if_pos hj]

end Fwencoder

namespace Fwencoder

/-! ### Header alignment -/

theorem infix_of_prefix_drop {nm b : Str} {k : Nat} (hk : k ≤ b.length)
    (h : nm <+: b.drop k) : nm <:+: b := by
  obtain ⟨u, hu⟩ := h
  exact ⟨b.take k, u, by rw [List.append_assoc, hu, List.take_append_drop]⟩

theorem prefix_of_append_of_le {nm A X : Str} (h : nm <+: A ++ X)
    (hlen : nm.length ≤ A.length) : nm <+: A := by
  rw [List.prefix_iff_eq_take] at h
  have htake : (A ++ X).take nm.length = A.take nm.length := by
    rw [List.take_append_eq_append_take, show nm.length - A.length = 0 by omega,
      List.take_zero, List.append_nil]
  rw [h, htake]
  exact List.take_prefix _ _

theorem no_occur_in_block {nm b : Str} {J : Nat} (hJ : 1 ≤ J) (rest : Str)
    (hnm_ne : nm ≠ []) (hnm_nospace : ∀ c ∈ nm, isGoSpace c = false)
    (hnotin : ¬ nm <:+: b) :
    ∀ k < b.length + J, ¬ isPrefixAt nm (b ++ (spaces J ++ rest)) k := by
  intro k hk hpre
  have hnm_len : 1 ≤ nm.length := by
    cases nm with
    | nil => exact absurd rfl hnm_ne
    | cons c t => simp
  by_cases hk1 : b.length ≤ k
  · -- the occurrence would start on a padding/separator space
    have hchar := isPrefixAt_get hpre (j := 0) (by omega)
    rw [Nat.add_zero] at hchar
    rw [List.getElem?_append, if_neg (by omega), List.getElem?_append,
      if_pos (by rw [spaces_length]; omega)] at hchar
    have hsp : (spaces J)[k - b.length]? = some ' ' := by
      unfold spaces
      rw [List.getElem?_replicate, if_pos (by omega)]
    rw [hsp] at hchar
    have hmem : ' ' ∈ nm := List.getElem?_mem hchar.symm
    have := hnm_nospace ' ' hmem
    simp [isGoSpace] at this
  · push_neg at hk1
    by_cases hk2 : k + nm.length ≤ b.length
    · -- the occurrence would sit inside the earlier name
      apply hnotin
      apply infix_of_prefix_drop (k := k) (by omega)
      have : nm <+: (b.drop k) ++ (spaces J ++ rest) := by
        unfold isPrefixAt at hpre
        rwa [List.drop_append_of_le_length (by omega)] at hpre
      exact prefix_of_append_of_le this (by rw [List.length_drop]; omega)
    · -- the occurrence would straddle the space after the earlier name
      push_neg at hk2
      have hchar := isPrefixAt_get hpre (j := b.length - k) (by omega)
      rw [show k + (b.length - k) = b.length by omega] at hchar
      rw [List.getElem?_append, if_neg (by omega), Nat.sub_self] at hchar
      have hsp : (spaces J ++ rest)[0]? = some ' ' := by
        rw [List.getElem?_append, if_pos (by rw [spaces_length]; omega)]
        unfold spaces
        rw [List.getElem?_replicate, if_pos (by omega)]
      rw [hsp] at hchar
      have hmem : ' ' ∈ nm := List.getElem?_mem hchar.symm
      have := hnm_nospace ' ' hmem
      simp [isGoSpace] at this

end Fwencoder

namespace Fwencoder

theorem plainName_ne_nil {n : Str} (h : plainName n = true) : n ≠ [] := by
  unfold plainName at h
  rw [Bool.and_eq_true] at h
  intro hc
  subst hc
  simp at h

theorem plainName_no_space {n : Str} (h : plainName n = true) :
    ∀ c ∈ n, isGoSpace c = false := by
  unfold plainName at h
  rw [Bool.and_eq_true, List.all_eq_true] at h
  intro c hc
  have := h.2 c hc
  unfold plainChar at this
  rw [Bool.and_eq_true] at this
  simpa using this.2

theorem plainName_head_ne_space {c : Char} {t : Str}
    (h : plainName (c :: t) = true) : c ≠ ' ' := by
  have := plainName_no_space h c (by simp)
  intro hc
  subst hc
  simp [isGoSpace] at this

theorem padRight_sep (nm : Str) (w : Nat) :
    padRight nm w ++ [' '] = nm ++ spaces ((w - nm.length) + 1) := by
  unfold padRight spaces
  rw [List.append_assoc]
  congr 1
  rw [List.replicate_succ']

theorem prefixStr_nil : prefixStr [] = [] := rfl

theorem prefixStr_cons (p : Str × Nat) (ps : List (Str × Nat)) :
    prefixStr (p :: ps) = (padRight p.1 p.2 ++ [' ']) ++ prefixStr ps := by
  simp [prefixStr]

theorem prefixStr_append (ps qs : List (Str × Nat)) :
    prefixStr (ps ++ qs) = prefixStr ps ++ prefixStr qs := by
  simp [prefixStr]

theorem joinSep_cons_ne {sep x : Str} {l : List Str} (h : l ≠ []) :
    joinSep sep (x :: l) = x ++ sep ++ joinSep sep l := by
  cases l with
  | nil => exact absurd rfl h
  | cons y t => rfl

theorem joinSep_blocks_decompose (ps qs : List (Str × Nat)) (hqs : qs ≠ []) :
    joinSep [' '] ((ps ++ qs).map (fun p => padRight p.1 p.2)) =
      prefixStr ps ++ joinSep [' '] (qs.map (fun p => padRight p.1 p.2)) := by
  induction ps with
  | nil => simp [prefixStr]
  | cons p rest ih =>
    have hne : (rest ++ qs).map (fun p => padRight p.1 p.2) ≠ [] := by
      simp only [ne_eq, List.map_eq_nil_iff, List.append_eq_nil]
      intro hcon
      exact hqs hcon.2
    rw [List.cons_append, List.map_cons, joinSep_cons_ne hne, ih, prefixStr_cons]
    simp [List.append_assoc]

theorem no_early (ps : List (Str × Nat)) (nm : Str) (tail : Str)
    (hnm : plainName nm = true)
    (hps : ∀ p ∈ ps, plainName p.1 = true ∧ ¬ nm <:+: p.1) :
    ∀ k < (prefixStr ps).length, ¬ isPrefixAt nm (prefixStr ps ++ tail) k := by
  induction ps with
  | nil =>
    intro k hk
    rw [prefixStr_nil] at hk
    simp at hk
  | cons p rest ih =>
    intro k hk hpre
    rw [prefixStr_cons] at hk
    rw [prefixStr_cons, List.append_assoc, padRight_sep, List.append_assoc] at hpre
    have hlen1 : (padRight p.1 p.2 ++ [' ']).length = p.1.length + ((p.2 - p.1.length) + 1) := by
      rw [padRight_sep, List.length_append, spaces_length]
    by_cases hk1 : k < p.1.length + ((p.2 - p.1.length) + 1)
    · exact no_occur_in_block (by omega) (prefixStr rest ++ tail)
        (plainName_ne_nil hnm) (plainName_no_space hnm)
        (hps p (by simp)).2 k hk1 hpre
    · push_neg at hk1
      have hk2 : k = (p.1.length + ((p.2 - p.1.length) + 1)) + (k - (p.1.length + ((p.2 - p.1.length) + 1))) := by
        omega
      have hdrop : isPrefixAt nm (prefixStr rest ++ tail)
          (k - (p.1.length + ((p.2 - p.1.length) + 1))) := by
        unfold isPrefixAt at hpre ⊢
        rw [← List.append_assoc] at hpre
        have hlen2 : (p.1 ++ spaces ((p.2 - p.1.length) + 1)).length =
            p.1.length + ((p.2 - p.1.length) + 1) := by
          rw [List.length_append, spaces_length]
        rw [hk2, ← hlen2, List.drop_append] at hpre
        rw [hlen2] at hpre
        exact hpre
      apply ih (fun q hq => hps q (by simp [hq])) _ ?_ hdrop
      rw [List.length_append] at hk
      rw [hlen1] at hk
      omega

end Fwencoder

namespace Fwencoder

theorem drop_left_append {A B : Str} : (A ++ B).drop A.length = B := by
  rw [show A.length = A.length + 0 by omega, List.drop_append]
  rfl

theorem findPattern_header (ps qs : List (Str × Nat)) (nm : Str) (w : Nat)
    (hnm : plainName nm = true)
    (hps : ∀ p ∈ ps, plainName p.1 = true ∧ ¬ nm <:+: p.1)
    (hq : ∀ p ∈ qs, plainName p.1 = true) :
    findPattern nm (joinSep [' '] ((ps ++ (nm, w) :: qs).map (fun p => padRight p.1 p.2))) =
      some ((prefixStr ps).length,
        (prefixStr ps).length + nm.length +
          ((w - nm.length) + (if qs = [] then 0 else 1))) := by
  have hdec := joinSep_blocks_decompose ps ((nm, w) :: qs) (by simp)
  -- the tail after this column's name
  have htail : ∃ Y, joinSep [' '] (((nm, w) :: qs).map (fun p => padRight p.1 p.2)) =
      nm ++ Y ∧ countSpaces Y = (w - nm.length) + (if qs = [] then 0 else 1) := by
    cases qs with
    | nil =>
      refine ⟨spaces (w - nm.length), rfl, ?_⟩
      rw [countSpaces_spaces]
      simp
    | cons q qt =>
      have hqplain := hq q (by simp)
      obtain ⟨c, t2, hq1⟩ : ∃ c t2, q.1 = c :: t2 := by
        cases hcq : q.1 with
        | nil => exact absurd hcq (plainName_ne_nil hqplain)
        | cons c t2 => exact ⟨c, t2, rfl⟩
      have hcsp : c ≠ ' ' := plainName_head_ne_space (hq1 ▸ hqplain)
      have hjoin : ∃ Z, joinSep [' '] ((q :: qt).map (fun p => padRight p.1 p.2)) = c :: Z := by
        cases qt with
        | nil =>
          refine ⟨t2 ++ spaces (q.2 - q.1.length), ?_⟩
          show padRight q.1 q.2 = _
          unfold padRight
          rw [hq1]
          rfl
        | cons q2 qt2 =>
          refine ⟨t2 ++ spaces (q.2 - q.1.length) ++ ([' '] ++
            joinSep [' '] ((q2 :: qt2).map (fun p => padRight p.1 p.2))), ?_⟩
          rw [List.map_cons, joinSep_cons_ne (by simp)]
          unfold padRight
          rw [hq1]
          simp [List.append_assoc]
      obtain ⟨Z, hZ⟩ := hjoin
      refine ⟨spaces ((w - nm.length) + 1) ++ c :: Z, ?_, ?_⟩
      · rw [List.map_cons, joinSep_cons_ne (by simp), padRight_sep, hZ,
          List.append_assoc]
      · rw [countSpaces_spaces_append hcsp, if_neg (by simp)]
  obtain ⟨Y, hY, hcount⟩ := htail
  rw [hdec, hY]
  have hoccur : isPrefixAt nm (prefixStr ps ++ (nm ++ Y)) (prefixStr ps).length := by
    unfold isPrefixAt
    rw [drop_left_append]
    exact List.prefix_append nm Y
  have hfo : firstOccur nm (prefixStr ps ++ (nm ++ Y)) = some (prefixStr ps).length := by
    apply firstOccur_of_first hoccur
    intro j hj
    exact no_early ps nm (nm ++ Y) hnm hps j hj
  unfold findPattern
  rw [hfo]
  have hdrop : (prefixStr ps ++ (nm ++ Y)).drop ((prefixStr ps).length + nm.length) = Y := by
    rw [← List.append_assoc, ← List.length_append, drop_left_append]
  show some ((prefixStr ps).length, (prefixStr ps).length + nm.length +
      countSpaces ((prefixStr ps ++ (nm ++ Y)).drop ((prefixStr ps).length + nm.length))) = _
  rw [hdrop, hcount]

end Fwencoder

namespace Fwencoder

theorem litChar_ne {c : Char} (h : litChar c = true) :
    c ≠ '(' ∧ c ≠ ')' ∧ c ≠ '*' ∧ c ≠ '+' ∧ c ≠ '?' ∧ c ≠ '|' ∧ c ≠ '\\' ∧ c ≠ '[' := by
  unfold litChar at h
  rw [Bool.and_eq_true] at h
  have h2 := h.2
  rw [Bool.not_eq_true'] at h2
  have hnm : c ∉ reMetachars := by
    intro hm
    simp at h2
    exact h2 hm
  unfold reMetachars at hnm
  simp only [List.mem_cons, List.not_mem_nil, or_false, not_or] at hnm
  refine ⟨?_, ?_, ?_, ?_, ?_, ?_, ?_, ?_⟩ <;> tauto

theorem reScan_cons_false (c : Char) (rest : Str) (d a : Nat) :
    reScan (c :: rest) d a false =
      (if c = '(' then reScan rest (d + 1) 0 false
      else if c = ')' then d ≠ 0 && reScan rest (d - 1) 1 false
      else if c = '*' ∨ c = '+' then a = 1 && reScan rest d 2 false
      else if c = '?' then (a = 1 ∨ a = 2) && reScan rest d (if a = 1 then 2 else 0) false
      else if c = '|' then reScan rest d 0 false
      else if c = '\\' then
        match rest with
        | [] => false
        | e :: rest2 => escOK e && reScan rest2 d 1 false
      else if c = '[' then reScan rest d a true
      else reScan rest d 1 false) := by
  rw [reScan.eq_def]
  rfl

theorem reScan_lit_tail {cs : Str} (h : ∀ c ∈ cs, litChar c = true) (a : Nat) :
    reScan (cs ++ [' ', '*', ')']) 1 a false = true := by
  induction cs generalizing a with
  | nil => rfl
  | cons c t ih =>
    obtain ⟨h1, h2, h3, h4, h5, h6, h7, h8⟩ := litChar_ne (h c (by simp))
    have step : reScan (c :: (t ++ [' ', '*', ')'])) 1 a false =
        reScan (t ++ [' ', '*', ')']) 1 1 false := by
      rw [reScan_cons_false]
      rw [if_neg h1, if_neg h2, if_neg (by rintro (rfl | rfl) <;> simp_all),
        if_neg h5, if_neg h6, if_neg h7, if_neg h8]
    rw [List.cons_append, step]
    exact ih (fun x hx => h x (by simp [hx])) 1

theorem plainName_regexValid {n : Str} (h : ∀ c ∈ n, litChar c = true) :
    goRegexpValid (mkHeaderPattern n) = true := by
  unfold goRegexpValid mkHeaderPattern
  have step : reScan ('(' :: (n ++ [' ', '*', ')'])) 0 0 false =
      reScan (n ++ [' ', '*', ')']) 1 0 false := by
    rw [reScan_cons_false, if_pos rfl]
  rw [step]
  exact reScan_lit_tail h 0

theorem plainName_litChar {n : Str} (h : plainName n = true) :
    ∀ c ∈ n, litChar c = true := by
  unfold plainName at h
  rw [Bool.and_eq_true, List.all_eq_true] at h
  intro c hc
  have := h.2 c hc
  unfold plainChar at this
  rw [Bool.and_eq_true] at this
  exact this.1

theorem parseHeaders_blocks (qs : List (Str × Nat)) :
    ∀ ps : List (Str × Nat),
    (∀ p ∈ ps ++ qs, plainName p.1 = true) →
    ((ps ++ qs).Pairwise (fun a b => ¬ a.1 <:+: b.1 ∧ ¬ b.1 <:+: a.1)) →
    parseHeaders (joinSep [' '] ((ps ++ qs).map (fun p => padRight p.1 p.2)))
        (qs.map (·.1)) = .ok (expectedCols qs (prefixStr ps).length) := by
  induction qs with
  | nil => intro ps hplain hsep; rfl
  | cons q qt ih =>
    intro ps hplain hsep
    obtain ⟨nm, w⟩ := q
    have hnm : plainName nm = true := hplain (nm, w) (by simp)
    rw [List.map_cons]
    rw [parseHeaders]
    rw [if_pos (plainName_regexValid (plainName_litChar hnm))]
    have hps : ∀ p ∈ ps, plainName p.1 = true ∧ ¬ nm <:+: p.1 := by
      intro p hp
      refine ⟨hplain p (by simp [hp]), ?_⟩
      rw [List.pairwise_append] at hsep
      exact (hsep.2.2 p hp (nm, w) (by simp)).2
    have hq : ∀ p ∈ qt, plainName p.1 = true := by
      intro p hp
      exact hplain p (by simp [hp])
    rw [findPattern_header ps qt nm w hnm hps hq]
    have hreassoc : ps ++ (nm, w) :: qt = (ps ++ [(nm, w)]) ++ qt := by
      simp
    have hplain2 : ∀ p ∈ (ps ++ [(nm, w)]) ++ qt, plainName p.1 = true := by
      intro p hp
      apply hplain
      rw [hreassoc]
      exact hp
    have hsep2 : ((ps ++ [(nm, w)]) ++ qt).Pairwise
        (fun a b => ¬ a.1 <:+: b.1 ∧ ¬ b.1 <:+: a.1) := by
      rw [← hreassoc]
      exact hsep
    have hrec := ih (ps ++ [(nm, w)]) hplain2 hsep2
    rw [hreassoc, hrec]
    have hexp : expectedCols ((nm, w) :: qt) (prefixStr ps).length =
        ⟨nm, (prefixStr ps).length,
          (prefixStr ps).length + (padRight nm w).length + (if qt = [] then 0 else 1)⟩ ::
          expectedCols qt ((prefixStr ps).length + (padRight nm w).length + 1) := rfl
    rw [hexp]
    have hbl : (padRight nm w).length = nm.length + (w - nm.length) := by
      unfold padRight
      rw [List.length_append, spaces_length]
    have hstop : (prefixStr ps).length + nm.length +
        ((w - nm.length) + (if qt = [] then 0 else 1)) =
        (prefixStr ps).length + (padRight nm w).length + (if qt = [] then 0 else 1) := by
      rw [hbl]
      omega
    have hoffs : (prefixStr (ps ++ [(nm, w)])).length =
        (prefixStr ps).length + (padRight nm w).length + 1 := by
      rw [prefixStr_append, List.length_append, prefixStr_cons, prefixStr_nil,
        List.append_nil, List.length_append, List.length_singleton]
      have hproj : padRight ((nm, w).1) ((nm, w).2) = padRight nm w := rfl
      rw [hproj]
      omega
    rw [hstop, hoffs]

end Fwencoder

namespace Fwencoder

/-! ### Cell extraction and per-kind round trip -/

theorem prefixStrS_nil : prefixStrS [] = [] := rfl

theorem prefixStrS_cons (x : Str) (xs : List Str) :
    prefixStrS (x :: xs) = (x ++ [' ']) ++ prefixStrS xs := by
  simp [prefixStrS]

theorem prefixStrS_length (xs : List Str) :
    (prefixStrS xs).length = (xs.map (fun x => x.length + 1)).sum := by
  induction xs with
  | nil => rfl
  | cons x t ih =>
    rw [prefixStrS_cons, List.length_append, ih, List.map_cons, List.sum_cons,
      List.length_append]
    simp

theorem prefixStr_eq_S (ps : List (Str × Nat)) :
    prefixStr ps = prefixStrS (ps.map (fun p => padRight p.1 p.2)) := by
  simp [prefixStr, prefixStrS, List.map_map]
  rfl

theorem joinSep_decomposeS (xs ys : List Str) (hys : ys ≠ []) :
    joinSep [' '] (xs ++ ys) = prefixStrS xs ++ joinSep [' '] ys := by
  induction xs with
  | nil => simp [prefixStrS]
  | cons x rest ih =>
    have hne : rest ++ ys ≠ [] := by
      simp only [ne_eq, List.append_eq_nil]
      intro hcon
      exact hys hcon.2
    rw [List.cons_append, joinSep_cons_ne hne, ih, prefixStrS_cons]
    simp [List.append_assoc]

theorem extract_cell (pre : List Str) (cell : Str) (post : List Str) :
    ((joinSep [' '] (pre ++ cell :: post)).drop (prefixStrS pre).length).take
        (cell.length + (if post = [] then 0 else 1)) =
      cell ++ (if post = [] then [] else [' ']) := by
  rw [joinSep_decomposeS pre (cell :: post) (by simp), drop_left_append]
  cases post with
  | nil =>
    show (joinSep [' '] [cell]).take (cell.length + 0) = cell ++ []
    show cell.take (cell.length + 0) = cell ++ []
    rw [Nat.add_zero, List.take_length, List.append_nil]
  | cons p2 t =>
    rw [joinSep_cons_ne (by simp)]
    rw [if_neg (by simp), List.append_assoc]
    rw [List.take_append]
    congr 1

theorem renderVal_le_getFieldLen (x : FieldVal) :
    (renderVal x).length ≤ getFieldLen (some x) := by
  cases x with
  | vint w v => exact Nat.le_refl _
  | vuint w v => exact Nat.le_refl _
  | vstr s => exact length_le_utf8Len s
  | vbool b => cases b <;> simp [renderVal, getFieldLen]
  | vtime t => exact Nat.le_refl _

theorem trim_cell {f : FieldDesc} {x : FieldVal} (hrt : rtValB f (some x) = true)
    (k : Nat) : goTrimSpace (renderVal x ++ spaces k) = renderVal x := by
  unfold rtValB at hrt
  rw [Bool.and_eq_true] at hrt
  cases x with
  | vint w v => exact noSpace_trim_spaces (goFormatInt_no_space v) k
  | vuint w v => exact noSpace_trim_spaces (natToDigits_no_space v) k
  | vstr s =>
    have h2 := hrt.2
    rw [Bool.and_eq_true, Bool.and_eq_true] at h2
    have : goTrimSpace s = s := by
      have := h2.1.1
      rwa [beq_iff_eq] at this
    exact goTrimSpace_append_spaces this k
  | vbool b =>
    apply noSpace_trim_spaces
    cases b
    · show ∀ c ∈ "false".data, isGoSpace c = false
      decide
    · show ∀ c ∈ "true".data, isGoSpace c = false
      decide
  | vtime t =>
    have h2 := hrt.2
    rw [Bool.and_eq_true] at h2
    have hv : timeValid t := by
      have := h2.1
      rwa [decide_eq_true_eq] at this
    exact noSpace_trim_spaces (rfc3339Render_no_space hv) k

theorem fits_int64 {w : IntW} {v : Int} (h : fitsInt w v) :
    -(2 ^ 63) ≤ v ∧ v < 2 ^ 63 := by
  unfold fitsInt at h
  cases w <;> simp [IntW.bits] at h <;> constructor <;> omega

theorem fits_uint64 {w : IntW} {v : Nat} (h : fitsUint w v) : v < 2 ^ 64 := by
  unfold fitsUint at h
  cases w <;> simp [IntW.bits] at h <;> omega

theorem setFieldValue_render {f : FieldDesc} {x : FieldVal}
    (hw : wellTypedB f (some x) = true) (hrt : rtValB f (some x) = true) (k : Nat) :
    setFieldValue f (renderVal x ++ spaces k) = .ok (some x) := by
  have htrim := trim_cell hrt k
  cases x with
  | vint w v =>
    unfold wellTypedB at hw
    rw [Bool.and_eq_true, beq_iff_eq] at hw
    have hfits : fitsInt w v := by
      have := hw.2
      rwa [decide_eq_true_eq] at this
    unfold setFieldValue
    rw [hw.1, htrim]
    show (match goParseInt64 (renderVal (FieldVal.vint w v)) with
      | none => Except.error (GoErr.castError (renderVal (FieldVal.vint w v))
          f.name (typeName f))
      | some v2 =>
        if fitsInt w v2 then Except.ok (some (FieldVal.vint w v2))
        else Except.error (GoErr.overflowErrorInt v2 f.name (typeName f))) =
      Except.ok (some (FieldVal.vint w v))
    have hp : goParseInt64 (renderVal (FieldVal.vint w v)) = some v :=
      goParseInt64_format (fits_int64 hfits)
    rw [hp]
    show (if fitsInt w v then Except.ok (some (FieldVal.vint w v))
      else Except.error (GoErr.overflowErrorInt v f.name (typeName f))) = _
    rw [if_pos hfits]
  | vuint w v =>
    unfold wellTypedB at hw
    rw [Bool.and_eq_true, beq_iff_eq] at hw
    have hfits : fitsUint w v := by
      have := hw.2
      rwa [decide_eq_true_eq] at this
    unfold setFieldValue
    rw [hw.1, htrim]
    show (match goParseUint64 (renderVal (FieldVal.vuint w v)) with
      | none => Except.error (GoErr.castError (renderVal (FieldVal.vuint w v))
          f.name (typeName f))
      | some v2 =>
        if fitsUint w v2 then Except.ok (some (FieldVal.vuint w v2))
        else Except.error (GoErr.overflowErrorUint v2 f.name (typeName f))) =
      Except.ok (some (FieldVal.vuint w v))
    have hp : goParseUint64 (renderVal (FieldVal.vuint w v)) = some v :=
      goParseUint64_format (fits_uint64 hfits)
    rw [hp]
    show (if fitsUint w v then Except.ok (some (FieldVal.vuint w v))
      else Except.error (GoErr.overflowErrorUint v f.name (typeName f))) = _
    rw [if_pos hfits]
  | vstr s =>
    unfold wellTypedB at hw
    rw [beq_iff_eq] at hw
    unfold setFieldValue
    rw [hw, htrim]
    rfl
  | vbool b =>
    unfold wellTypedB at hw
    rw [beq_iff_eq] at hw
    unfold setFieldValue
    rw [hw, htrim]
    cases b <;> rfl
  | vtime t =>
    unfold wellTypedB at hw
    rw [beq_iff_eq] at hw
    unfold rtValB at hrt
    rw [Bool.and_eq_true, Bool.and_eq_true] at hrt
    have hv : timeValid t := by
      have := hrt.2.1
      rwa [decide_eq_true_eq] at this
    have hns : t.nsec = 0 := by
      have := hrt.2.2
      rwa [beq_iff_eq] at this
    unfold setFieldValue
    rw [hw, htrim]
    show (match rfc3339Parse (renderVal (FieldVal.vtime t)) with
      | none => Except.error (GoErr.castError (renderVal (FieldVal.vtime t))
          f.name (typeName f))
      | some t2 => Except.ok (some (FieldVal.vtime t2))) =
      Except.ok (some (FieldVal.vtime t))
    have hp : rfc3339Parse (renderVal (FieldVal.vtime t)) =
        some ⟨t.year, t.month, t.day, t.hour, t.minute, t.second, 0⟩ :=
      rfc3339_roundtrip hv
    rw [hp]
    have heta : (⟨t.year, t.month, t.day, t.hour, t.minute, t.second, 0⟩ : GoTime) = t := by
      cases t
      simp_all
    rw [heta]

end Fwencoder

namespace Fwencoder

/-! ### Record line decode -/

theorem expectedCols_mem_mid (ps qt : List (Str × Nat)) (nm : Str) (w : Nat) (off : Nat) :
    (⟨nm, off + (prefixStr ps).length,
      off + (prefixStr ps).length + (padRight nm w).length +
        (if qt = [] then 0 else 1)⟩ : FwColumn) ∈
      expectedCols (ps ++ (nm, w) :: qt) off := by
  induction ps generalizing off with
  | nil =>
    rw [prefixStr_nil]
    simp only [List.length_nil, Nat.add_zero, List.nil_append]
    rw [show expectedCols ((nm, w) :: qt) off =
      ⟨nm, off, off + (padRight nm w).length + (if qt = [] then 0 else 1)⟩ ::
        expectedCols qt (off + (padRight nm w).length + 1) from rfl]
    exact List.mem_cons_self _ _
  | cons p ps2 ih =>
    rw [List.cons_append]
    rw [show expectedCols (p :: (ps2 ++ (nm, w) :: qt)) off =
      ⟨p.1, off, off + (padRight p.1 p.2).length +
          (if ps2 ++ (nm, w) :: qt = [] then 0 else 1)⟩ ::
        expectedCols (ps2 ++ (nm, w) :: qt) (off + (padRight p.1 p.2).length + 1) from by
      cases p
      rfl]
    apply List.mem_cons_of_mem
    have := ih (off + (padRight p.1 p.2).length + 1)
    have hoff : off + (padRight p.1 p.2).length + 1 + (prefixStr ps2).length =
        off + (prefixStr (p :: ps2)).length := by
      rw [prefixStr_cons, List.length_append, List.length_append, List.length_singleton]
      omega
    rwa [hoff] at this

theorem expectedCols_name_map (qs : List (Str × Nat)) (off : Nat) :
    (expectedCols qs off).map FwColumn.name = qs.map (·.1) := by
  induction qs generalizing off with
  | nil => rfl
  | cons q qt ih =>
    obtain ⟨nm, w⟩ := q
    rw [show expectedCols ((nm, w) :: qt) off =
      ⟨nm, off, off + (padRight nm w).length + (if qt = [] then 0 else 1)⟩ ::
        expectedCols qt (off + (padRight nm w).length + 1) from rfl]
    rw [List.map_cons, ih, List.map_cons]

theorem writeValue_length {v : Option FieldVal} {w : Nat}
    (h : getFieldLen v ≤ w) : (writeValue v w).length = w := by
  cases v with
  | none => simp [writeValue, spaces]
  | some x =>
    have := renderVal_le_getFieldLen x
    unfold writeValue
    rw [padRight_length]
    omega

theorem namesSeparated_nodup {schema : Schema} (h : namesSeparated schema) :
    (schema.map FieldDesc.name).Nodup := by
  unfold namesSeparated at h
  have hp : (schema.map FieldDesc.name).Pairwise (fun a b => a ≠ b) := by
    rw [List.pairwise_map]
    apply List.Pairwise.imp ?_ h
    intro a b hab hEq
    exact hab.1 (by rw [hEq])
  exact hp

end Fwencoder

namespace Fwencoder

theorem createObject_cons_some {M : MapSS} {f : FieldDesc} {rest : Schema} {s : Str}
    {v : Option FieldVal} (hl : mapLookup M f.name = some s)
    (hset : setFieldValue f s = .ok v) :
    createObject M (f :: rest) = (createObject M rest).map (fun t => v :: t) := by
  simp only [createObject, hl, hset]

theorem createObject_of_fields {M : MapSS} {schema : Schema} {r : Record}
    (h : List.Forall₂ (fun (f : FieldDesc) (v : Option FieldVal) => ∃ s,
      mapLookup M f.name = some s ∧ setFieldValue f s = .ok v) schema r) :
    createObject M schema = .ok r := by
  induction h with
  | nil => rfl
  | @cons f v fs vs hfv hrest ih =>
    obtain ⟨s, hl, hset⟩ := hfv
    rw [createObject_cons_some hl hset, ih]
    rfl

theorem cells_blocks_len_eq (m : CWI) (z : List (FieldDesc × Option FieldVal))
    (hz : ∀ fr ∈ z, getFieldLen fr.2 ≤ cwmGet m fr.1.name ∧
      fr.1.name.length ≤ cwmGet m fr.1.name) :
    (prefixStrS (z.map (fun fr => writeValue fr.2 (cwmGet m fr.1.name)))).length =
      (prefixStr (z.map (fun fr => (fr.1.name, cwmGet m fr.1.name)))).length := by
  induction z with
  | nil => rfl
  | cons fr t ih =>
    rw [List.map_cons, List.map_cons, prefixStrS_cons, prefixStr_cons,
      List.length_append, List.length_append]
    have h1 := (hz fr (by simp)).1
    have h2 := (hz fr (by simp)).2
    rw [ih fun q hq => hz q (by simp [hq])]
    have hcell : (writeValue fr.2 (cwmGet m fr.1.name)).length = cwmGet m fr.1.name :=
      writeValue_length h1
    have hblock : (padRight fr.1.name (cwmGet m fr.1.name)).length = cwmGet m fr.1.name := by
      rw [padRight_length]
      omega
    rw [List.length_append, List.length_append, hcell, hblock]

theorem zip_pairs_eq (s1 : Schema) (r1 : Record) (m : CWI) (h : s1.length = r1.length) :
    (s1.zip r1).map (fun fr => (fr.1.name, cwmGet m fr.1.name)) = schemaPairs s1 m := by
  unfold schemaPairs
  rw [show (fun fr : FieldDesc × Option FieldVal => (fr.1.name, cwmGet m fr.1.name)) =
    (fun f : FieldDesc => (f.name, cwmGet m f.name)) ∘ Prod.fst from rfl]
  rw [← List.map_map, List.map_fst_zip _ _ (le_of_eq h)]

theorem schemaPairs_names (schema : Schema) (m : CWI) :
    (schemaPairs schema m).map (·.1) = schema.map FieldDesc.name := by
  unfold schemaPairs
  rw [List.map_map]
  rfl

theorem take_drop_cell (pre : List Str) (cell : Str) (post : List Str) (a b : Nat)
    (ha : a = (prefixStrS pre).length)
    (hb : b = a + cell.length + (if post = [] then 0 else 1)) :
    ((joinSep [' '] (pre ++ cell :: post)).drop a).take (b - a) =
      cell ++ (if post = [] then [] else [' ']) := by
  subst ha
  subst hb
  have hsub : ∀ i : Nat, (prefixStrS pre).length + cell.length + i -
      (prefixStrS pre).length = cell.length + i := fun i => by omega
  rw [hsub]
  exact extract_cell pre cell post

end Fwencoder

namespace Fwencoder

theorem decode_fields (schema : Schema) (m : CWI) (r : Record) (m0 : MapSS)
    (hsep : namesSeparated schema)
    (hwname : ∀ f ∈ schema, f.name.length ≤ cwmGet m f.name)
    (hall : ∀ fr ∈ schema.zip r, wellTypedB fr.1 fr.2 = true ∧ rtValB fr.1 fr.2 = true ∧
      fr.2 ≠ none)
    (hwcell : ∀ fr ∈ schema.zip r, getFieldLen fr.2 ≤ cwmGet m fr.1.name)
    (hlen : r.length = schema.length) :
    ∀ (s2 : Schema) (r2 : Record) (s1 : Schema) (r1 : Record),
      schema = s1 ++ s2 → r = r1 ++ r2 → s1.length = r1.length →
      List.Forall₂ (fun (f : FieldDesc) (v : Option FieldVal) => ∃ s,
        mapLookup (insertColumns m0 (expectedCols (schemaPairs schema m) 0)
          (renderRow schema m r)) f.name = some s ∧ setFieldValue f s = .ok v) s2 r2 := by
  intro s2
  induction s2 with
  | nil =>
    intro r2 s1 r1 hs hr hl1
    have hr2 : r2 = [] := by
      have h1 : r.length = r1.length + r2.length := by rw [hr, List.length_append]
      have h2 : schema.length = s1.length := by rw [hs, List.append_nil]
      have : r2.length = 0 := by omega
      exact List.length_eq_zero.mp this
    subst hr2
    exact List.Forall₂.nil
  | cons f fs ih =>
    intro r2 s1 r1 hs hr hl1
    cases r2 with
    | nil =>
      exfalso
      have h1 : r.length = r1.length := by rw [hr, List.append_nil]
      have h2 : schema.length = s1.length + (fs.length + 1) := by
        rw [hs, List.length_append, List.length_cons]
      omega
    | cons v vs =>
      have hvs : vs.length = fs.length := by
        have h1 : r.length = r1.length + (vs.length + 1) := by
          rw [hr, List.length_append, List.length_cons]
        have h2 : schema.length = s1.length + (fs.length + 1) := by
          rw [hs, List.length_append, List.length_cons]
        omega
      have hzipdec : schema.zip r = s1.zip r1 ++ (f, v) :: fs.zip vs := by
        rw [hs, hr, List.zip_append hl1, List.zip_cons_cons]
      have hmemzip : (f, v) ∈ schema.zip r := by
        rw [hzipdec]
        simp
      have hmemf : f ∈ schema := by
        rw [hs]
        simp
      obtain ⟨hwt, hrt, hne⟩ := hall (f, v) hmemzip
      obtain ⟨x, rfl⟩ : ∃ x, v = some x := by
        cases v with
        | none => exact absurd rfl hne
        | some x => exact ⟨x, rfl⟩
      constructor
      · -- this field reads back from its own column span
        have hpairsdec : schemaPairs schema m =
            schemaPairs s1 m ++ (f.name, cwmGet m f.name) :: schemaPairs fs m := by
          rw [hs]
          unfold schemaPairs
          simp
        have hnodup : ((expectedCols (schemaPairs schema m) 0).map FwColumn.name).Nodup := by
          rw [expectedCols_name_map, schemaPairs_names]
          exact namesSeparated_nodup hsep
        have hcolmem := expectedCols_mem_mid (schemaPairs s1 m) (schemaPairs fs m)
          f.name (cwmGet m f.name) 0
        rw [← hpairsdec] at hcolmem
        have hlook := insertColumns_lookup_unique hnodup hcolmem m0
          (renderRow schema m r)
        refine ⟨_, hlook, ?_⟩
        -- compute the slice: decompose the rendered row around this cell
        have hrowdec : renderRow schema m r = joinSep [' ']
            ((s1.zip r1).map (fun fr => writeValue fr.2 (cwmGet m fr.1.name)) ++
              writeValue (some x) (cwmGet m f.name) ::
              (fs.zip vs).map (fun fr => writeValue fr.2 (cwmGet m fr.1.name))) := by
          unfold renderRow
          rw [hzipdec]
          rw [List.map_append, List.map_cons]
        have hstart : (prefixStr (schemaPairs s1 m)).length =
            (prefixStrS ((s1.zip r1).map
              (fun fr => writeValue fr.2 (cwmGet m fr.1.name)))).length := by
          rw [cells_blocks_len_eq m (s1.zip r1) ?_, zip_pairs_eq s1 r1 m hl1]
          intro q hq
          have hqmem : q ∈ schema.zip r := by
            rw [hzipdec]
            simp [hq]
          refine ⟨hwcell q hqmem, hwname q.1 ?_⟩
          rw [hs]
          rcases List.mem_zip hq with ⟨hq1, _⟩
          simp [hq1]
        have hbl : (padRight f.name (cwmGet m f.name)).length = cwmGet m f.name := by
          rw [padRight_length]
          have := hwname f hmemf
          omega
        have hcelllen : (writeValue (some x) (cwmGet m f.name)).length = cwmGet m f.name :=
          writeValue_length (hwcell (f, some x) hmemzip)
        have hpost : ((fs.zip vs).map
            (fun fr => writeValue fr.2 (cwmGet m fr.1.name)) = []) ↔
            (schemaPairs fs m = []) := by
          cases fs with
          | nil => simp [schemaPairs]
          | cons g gs =>
            cases vs with
            | nil => simp at hvs
            | cons y ys => simp [schemaPairs]
        show setFieldValue f (((renderRow schema m r).drop
            (0 + (prefixStr (schemaPairs s1 m)).length)).take
            ((0 + (prefixStr (schemaPairs s1 m)).length +
              (padRight f.name (cwmGet m f.name)).length +
              (if schemaPairs fs m = [] then 0 else 1)) -
              (0 + (prefixStr (schemaPairs s1 m)).length))) = Except.ok (some x)
        rw [hrowdec]
        rw [take_drop_cell _ _ _ _ _ (by rw [Nat.zero_add]; exact hstart) ?_]
        · by_cases hfs0 : ((fs.zip vs).map
              (fun fr => writeValue fr.2 (cwmGet m fr.1.name))) = []
          · rw [if_pos hfs0, List.append_nil]
            show setFieldValue f (padRight (renderVal x) (cwmGet m f.name)) = _
            unfold padRight
            exact setFieldValue_render hwt hrt _
          · rw [if_neg hfs0]
            show setFieldValue f (padRight (renderVal x) (cwmGet m f.name) ++ [' ']) = _
            rw [padRight_sep]
            exact setFieldValue_render hwt hrt _
        · rw [hbl, hcelllen]
          by_cases h0 : schemaPairs fs m = []
          · rw [if_pos h0, if_pos (hpost.mpr h0)]
          · rw [if_neg h0, if_neg (fun hc => h0 (hpost.mp hc))]
      · exact ih vs (s1 ++ [f]) (r1 ++ [some x]) (by rw [hs]; simp) (by rw [hr]; simp)
          (by simp [hl1])

end Fwencoder

namespace Fwencoder

theorem mem_joinSep {c : Char} {sep : Str} : ∀ {parts : List Str},
    c ∈ joinSep sep parts → c ∈ sep ∨ ∃ p ∈ parts, c ∈ p := by
  intro parts
  induction parts with
  | nil => intro h; simp [joinSep] at h
  | cons x rest ih =>
    cases rest with
    | nil =>
      intro h
      exact Or.inr ⟨x, by simp, h⟩
    | cons y t =>
      intro h
      rw [show joinSep sep (x :: y :: t) = x ++ sep ++ joinSep sep (y :: t) from rfl] at h
      rcases List.mem_append.mp h with h1 | h2
      · rcases List.mem_append.mp h1 with hx | hs
        · exact Or.inr ⟨x, by simp, hx⟩
        · exact Or.inl hs
      · rcases ih h2 with hs | ⟨p, hp, hc⟩
        · exact Or.inl hs
        · exact Or.inr ⟨p, by simp [hp], hc⟩

theorem mem_padRight {c : Char} {s : Str} {w : Nat} (h : c ∈ padRight s w) :
    c ∈ s ∨ c = ' ' := by
  unfold padRight at h
  rcases List.mem_append.mp h with h1 | h2
  · exact Or.inl h1
  · exact Or.inr (mem_spaces h2)

theorem header_no_nl {ps : List (Str × Nat)}
    (hplain : ∀ p ∈ ps, plainName p.1 = true) :
    ∀ c ∈ joinSep [' '] (ps.map (fun p => padRight p.1 p.2)),
      c ≠ '\n' ∧ c ≠ '\r' := by
  intro c hc
  rcases mem_joinSep hc with hs | ⟨b, hb, hcb⟩
  · simp at hs
    subst hs
    exact ⟨by decide, by decide⟩
  · rcases List.mem_map.mp hb with ⟨p, hp, rfl⟩
    rcases mem_padRight hcb with h1 | h2
    · exact not_space_ne_nl (plainName_no_space (hplain p hp) c h1)
    · subst h2
      exact ⟨by decide, by decide⟩

theorem renderVal_no_nl {f : FieldDesc} {x : FieldVal}
    (hrt : rtValB f (some x) = true) :
    ∀ c ∈ renderVal x, c ≠ '\n' ∧ c ≠ '\r' := by
  unfold rtValB at hrt
  rw [Bool.and_eq_true] at hrt
  intro c hc
  cases x with
  | vint w v => exact not_space_ne_nl (goFormatInt_no_space v c hc)
  | vuint w v => exact not_space_ne_nl (natToDigits_no_space v c hc)
  | vstr s =>
    have h2 := hrt.2
    rw [Bool.and_eq_true, Bool.and_eq_true] at h2
    constructor
    · intro hceq
      subst hceq
      have := h2.1.2
      rw [Bool.not_eq_true'] at this
      rw [show (renderVal (FieldVal.vstr s)) = s from rfl] at hc
      rw [List.contains_eq_any_beq] at this
      have : ¬ '\n' ∈ s := by
        intro hm
        rw [List.any_eq_false] at this
        have := this _ hm
        simp at this
      exact this hc
    · intro hceq
      subst hceq
      have := h2.2
      rw [Bool.not_eq_true'] at this
      rw [show (renderVal (FieldVal.vstr s)) = s from rfl] at hc
      rw [List.contains_eq_any_beq] at this
      have : ¬ '\r' ∈ s := by
        intro hm
        rw [List.any_eq_false] at this
        have := this _ hm
        simp at this
      exact this hc
  | vbool b =>
    apply not_space_ne_nl
    cases b
    · exact (show ∀ c2 ∈ "false".data, isGoSpace c2 = false by decide) c hc
    · exact (show ∀ c2 ∈ "true".data, isGoSpace c2 = false by decide) c hc
  | vtime t =>
    have h2 := hrt.2
    rw [Bool.and_eq_true] at h2
    have hv : timeValid t := by
      have := h2.1
      rwa [decide_eq_true_eq] at this
    exact not_space_ne_nl (rfc3339Render_no_space hv c hc)

theorem row_no_nl {schema : Schema} {m : CWI} {r : Record}
    (hrt : ∀ fr ∈ schema.zip r, rtValB fr.1 fr.2 = true) :
    ∀ c ∈ renderRow schema m r, c ≠ '\n' ∧ c ≠ '\r' := by
  intro c hc
  unfold renderRow at hc
  rcases mem_joinSep hc with hs | ⟨b, hb, hcb⟩
  · simp at hs
    subst hs
    exact ⟨by decide, by decide⟩
  · rcases List.mem_map.mp hb with ⟨fr, hfr, rfl⟩
    cases hv : fr.2 with
    | none =>
      rw [hv] at hcb
      have := mem_spaces hcb
      subst this
      exact ⟨by decide, by decide⟩
    | some x =>
      rw [hv] at hcb
      rcases mem_padRight hcb with h1 | h2
      · have := hrt fr hfr
        rw [hv] at this
        exact renderVal_no_nl this c h1
      · subst h2
        exact ⟨by decide, by decide⟩

end Fwencoder

namespace Fwencoder

theorem joinSep_ne_nil_of_head {sep x : Str} {t : List Str} (hx : x ≠ []) :
    joinSep sep (x :: t) ≠ [] := by
  cases t with
  | nil => exact hx
  | cons y r =>
    show x ++ sep ++ joinSep sep (y :: r) ≠ []
    simp [hx]

theorem zip_mem_of_mem_left {schema : Schema} {r : Record} {f : FieldDesc}
    (hf : f ∈ schema) (hlen : r.length = schema.length) :
    ∃ v, (f, v) ∈ schema.zip r := by
  rcases List.mem_iff_getElem.mp hf with ⟨i, hi, hfi⟩
  have hiz : i < (schema.zip r).length := by
    rw [List.length_zip]
    omega
  have hir : i < r.length := by omega
  refine ⟨r[i], ?_⟩
  have : (schema.zip r)[i] = (schema[i], r[i]) := List.getElem_zip
  rw [hfi] at this
  rw [← this]
  exact List.getElem_mem hiz

theorem row_ne_nil {schema : Schema} {m : CWI} {r : Record}
    (hsne : schema ≠ []) (hlen : r.length = schema.length)
    (hwname : ∀ f ∈ schema, f.name.length ≤ cwmGet m f.name)
    (hplain : ∀ f ∈ schema, plainName f.name = true)
    (hwcell : ∀ fr ∈ schema.zip r, getFieldLen fr.2 ≤ cwmGet m fr.1.name) :
    renderRow schema m r ≠ [] := by
  cases schema with
  | nil => exact absurd rfl hsne
  | cons f fs =>
    cases r with
    | nil => simp at hlen
    | cons v vs =>
      unfold renderRow
      rw [List.zip_cons_cons, List.map_cons]
      apply joinSep_ne_nil_of_head
      have hmem : (f, v) ∈ (f :: fs).zip (v :: vs) := by
        rw [List.zip_cons_cons]
        simp
      have hlen2 : (writeValue v (cwmGet m f.name)).length = cwmGet m f.name :=
        writeValue_length (hwcell (f, v) hmem)
      have hge : 1 ≤ cwmGet m f.name := by
        have h1 := hwname f (by simp)
        have h2 : f.name ≠ [] := plainName_ne_nil (hplain f (by simp))
        have h3 : 1 ≤ f.name.length := by
          cases hn : f.name with
          | nil => exact absurd hn h2
          | cons a b => simp
        omega
      intro hc
      rw [hc] at hlen2
      simp at hlen2
      omega

theorem headerLine_eq (schema : Schema) (m : CWI) :
    (schema.map (fun f => f.name)).map (fun n => padRight n (cwmGet m n)) =
      (schemaPairs schema m).map (fun p => padRight p.1 p.2) := by
  unfold schemaPairs
  rw [List.map_map, List.map_map]
  rfl

theorem row_length_eq_header {schema : Schema} {m : CWI} {r : Record}
    (hlen : r.length = schema.length)
    (hwname : ∀ f ∈ schema, f.name.length ≤ cwmGet m f.name)
    (hwcell : ∀ fr ∈ schema.zip r, getFieldLen fr.2 ≤ cwmGet m fr.1.name) :
    (renderRow schema m r).length =
      (joinSep [' ']
        ((schemaPairs schema m).map (fun p => padRight p.1 p.2))).length := by
  unfold renderRow
  rw [joinSep_length, joinSep_length]
  have hc : ((schema.zip r).map
      (fun fr => writeValue fr.2 (cwmGet m fr.1.name))).map List.length =
      (schema.zip r).map (fun fr => cwmGet m fr.1.name) := by
    rw [List.map_map]
    apply List.map_congr_left
    intro fr hfr
    exact writeValue_length (hwcell fr hfr)
  have hh : ((schemaPairs schema m).map (fun p => padRight p.1 p.2)).map List.length =
      schema.map (fun f => cwmGet m f.name) := by
    unfold schemaPairs
    rw [List.map_map, List.map_map]
    apply List.map_congr_left
    intro f hf
    show (padRight f.name (cwmGet m f.name)).length = cwmGet m f.name
    rw [padRight_length]
    have := hwname f hf
    omega
  have hz : (schema.zip r).map (fun fr => cwmGet m fr.1.name) =
      schema.map (fun f => cwmGet m f.name) := by
    rw [show (fun fr : FieldDesc × Option FieldVal => cwmGet m fr.1.name) =
      (fun f : FieldDesc => cwmGet m f.name) ∘ Prod.fst from rfl]
    rw [← List.map_map, List.map_fst_zip _ _ (le_of_eq hlen.symm)]
  rw [hc, hz, hh]
  have hl1 : ((schema.zip r).map
      (fun fr => writeValue fr.2 (cwmGet m fr.1.name))).length = schema.length := by
    rw [List.length_map, List.length_zip]
    omega
  have hl2 : (((schemaPairs schema m).map (fun p => padRight p.1 p.2))).length =
      schema.length := by
    unfold schemaPairs
    rw [List.length_map, List.length_map]
  rw [hl1, hl2]

theorem writeData_all_some (schema : Schema) (m : CWI) :
    ∀ rs : List Record, rs ≠ [] →
    writeData schema m (rs.map some) =
      (joinSep ['\n'] (rs.map (renderRow schema m)), none) := by
  intro rs
  induction rs with
  | nil => intro h; exact absurd rfl h
  | cons r rest ih =>
    intro _
    cases rest with
    | nil => rfl
    | cons r2 t =>
      show (let p := writeData schema m ((r2 :: t).map some);
        (renderRow schema m r ++ '\n' :: p.1, p.2)) =
        (joinSep ['\n'] ((r :: r2 :: t).map (renderRow schema m)), none)
      rw [show (let p := writeData schema m ((r2 :: t).map some);
        (renderRow schema m r ++ '\n' :: p.1, p.2)) =
        ((renderRow schema m r ++ '\n' ::
          (writeData schema m ((r2 :: t).map some)).1,
          (writeData schema m ((r2 :: t).map some)).2)) from rfl]
      rw [ih (by simp)]
      show (renderRow schema m r ++ '\n' :: joinSep ['\n']
        ((r2 :: t).map (renderRow schema m)), none) = _
      rw [show (r :: r2 :: t).map (renderRow schema m) =
        renderRow schema m r :: (r2 :: t).map (renderRow schema m) from rfl]
      rw [show joinSep ['\n'] (renderRow schema m r ::
          (r2 :: t).map (renderRow schema m)) =
        renderRow schema m r ++ ['\n'] ++ joinSep ['\n']
          ((r2 :: t).map (renderRow schema m)) from rfl]
      rw [List.append_assoc]
      rfl

theorem marshalModel_struct (schema : Schema) (elems : List (Option Record)) :
    marshalModel (some (.kPtr (.kSlice (.kStruct schema)))) false elems =
      (writeHeader (schema.map (fun f => f.name)) (makeColumnWidthIndex schema elems) ++
        (writeData schema (makeColumnWidthIndex schema elems) elems).1,
       (writeData schema (makeColumnWidthIndex schema elems) elems).2) := rfl

theorem unmarshalModel_struct (schema : Schema) (input : Str) (prior : List Record) :
    unmarshalModel (some (.kPtr (.kSlice (.kStruct schema)))) false input prior =
      parseData input schema := rfl

end Fwencoder

namespace Fwencoder

theorem parseDataLoop_ok (schema : Schema) (hdrLen : Nat) (cols : List FwColumn) :
    ∀ (ls : List Str) (rs : List Record),
    List.Forall₂ (fun (l : Str) (r : Record) => l.length = hdrLen ∧
      ∀ m : MapSS, createObject (insertColumns m cols l) schema = .ok r) ls rs →
    ∀ (n : Nat) (m : MapSS) (acc : List Record),
      parseDataLoop schema hdrLen cols ls n m acc = (acc ++ rs, none) := by
  intro ls rs h
  induction h with
  | nil =>
    intro n m acc
    rw [List.append_nil]
    rfl
  | @cons l r ls2 rs2 hlr hrest ih =>
    intro n m acc
    have heq : parseDataLoop schema hdrLen cols (l :: ls2) n m acc =
        (if l.length ≠ hdrLen then (acc, some (.wrongDataLength n)) else
          match createObject (insertColumns m cols l) schema with
          | .error e => (acc, some (.lineError n e))
          | .ok r2 => parseDataLoop schema hdrLen cols ls2 (n + 1)
              (insertColumns m cols l) (acc ++ [r2])) := rfl
    rw [heq, if_neg (by rw [hlr.1]; exact fun hc => hc rfl), hlr.2 m]
    show parseDataLoop schema hdrLen cols ls2 (n + 1)
      (insertColumns m cols l) (acc ++ [r]) = _
    rw [ih (n + 1) (insertColumns m cols l) (acc ++ [r])]
    rw [List.append_assoc]
    rfl

theorem decode_row {schema : Schema} {r : Record} (m : CWI)
    (hsep : namesSeparated schema)
    (hwname : ∀ f ∈ schema, f.name.length ≤ cwmGet m f.name)
    (hall : ∀ fr ∈ schema.zip r, wellTypedB fr.1 fr.2 = true ∧ rtValB fr.1 fr.2 = true ∧
      fr.2 ≠ none)
    (hwcell : ∀ fr ∈ schema.zip r, getFieldLen fr.2 ≤ cwmGet m fr.1.name)
    (hlen : r.length = schema.length) (m0 : MapSS) :
    createObject (insertColumns m0 (expectedCols (schemaPairs schema m) 0)
      (renderRow schema m r)) schema = .ok r := by
  apply createObject_of_fields
  exact decode_fields schema m r m0 hsep hwname hall hwcell hlen
    schema r [] [] rfl rfl rfl

end Fwencoder

namespace Fwencoder

theorem roundtrip_core (schema : Schema) (elems : List Record) (m : CWI)
    (hplain : ∀ f ∈ schema, plainName f.name = true)
    (hsep : namesSeparated schema)
    (hwname : ∀ f ∈ schema, f.name.length ≤ cwmGet m f.name)
    (hlen : ∀ r ∈ elems, r.length = schema.length)
    (hvals : ∀ r ∈ elems, ∀ fr ∈ schema.zip r, wellTypedB fr.1 fr.2 = true ∧
      rtValB fr.1 fr.2 = true ∧ fr.2 ≠ none)
    (hwcell : ∀ r ∈ elems, ∀ fr ∈ schema.zip r, getFieldLen fr.2 ≤ cwmGet m fr.1.name)
    (hne : elems ≠ []) (hsne : schema ≠ []) :
    parseData (writeHeader (schema.map (fun f => f.name)) m ++
      joinSep ['\n'] (elems.map (renderRow schema m))) schema = (elems, none) := by
  have hwh : writeHeader (schema.map (fun f => f.name)) m =
      joinSep [' '] ((schemaPairs schema m).map (fun p => padRight p.1 p.2)) ++ ['\n'] := by
    unfold writeHeader
    rw [headerLine_eq]
  have hpairs_plain : ∀ p ∈ schemaPairs schema m, plainName p.1 = true := by
    intro p hp
    rcases List.mem_map.mp hp with ⟨f, hf, rfl⟩
    exact hplain f hf
  have hhnl : ∀ c ∈ joinSep [' ']
      ((schemaPairs schema m).map (fun p => padRight p.1 p.2)),
      c ≠ '\n' ∧ c ≠ '\r' := header_no_nl hpairs_plain
  have hinput : writeHeader (schema.map (fun f => f.name)) m ++
      joinSep ['\n'] (elems.map (renderRow schema m)) =
      joinSep [' '] ((schemaPairs schema m).map (fun p => padRight p.1 p.2)) ++
        '\n' :: joinSep ['\n'] (elems.map (renderRow schema m)) := by
    rw [hwh, List.append_assoc]
    rfl
  rw [hinput]
  have hscan : goScanLines
      (joinSep [' '] ((schemaPairs schema m).map (fun p => padRight p.1 p.2)) ++
        '\n' :: joinSep ['\n'] (elems.map (renderRow schema m))) =
      joinSep [' '] ((schemaPairs schema m).map (fun p => padRight p.1 p.2)) ::
        elems.map (renderRow schema m) := by
    apply goScanLines_header_rows
    · exact ⟨fun hc => (hhnl '\n' hc).1 rfl, fun hc => (hhnl '\r' hc).2 rfl⟩
    · intro hc
      rw [List.map_eq_nil_iff] at hc
      exact hne hc
    · intro row hrow
      rcases List.mem_map.mp hrow with ⟨r, hr, rfl⟩
      have hnl := @row_no_nl schema m r (fun fr hfr => (hvals r hr fr hfr).2.1)
      exact ⟨fun hc => (hnl '\n' hc).1 rfl, fun hc => (hnl '\r' hc).2 rfl⟩
    · intro row hrow
      rcases List.mem_map.mp hrow with ⟨r, hr, rfl⟩
      exact row_ne_nil hsne (hlen r hr) hwname hplain (hwcell r hr)
  unfold parseData
  rw [hscan]
  show (match parseHeaders
      (joinSep [' '] ((schemaPairs schema m).map (fun p => padRight p.1 p.2)))
      (schema.map (fun f => f.name)) with
    | .error e => (([] : List Record), some e)
    | .ok cols => parseDataLoop schema
        (joinSep [' ']
          ((schemaPairs schema m).map (fun p => padRight p.1 p.2))).length cols
        (elems.map (renderRow schema m)) 2 [] []) = (elems, none)
  have hph : parseHeaders
      (joinSep [' '] ((schemaPairs schema m).map (fun p => padRight p.1 p.2)))
      (schema.map (fun f => f.name)) =
      .ok (expectedCols (schemaPairs schema m) 0) := by
    have hblocks := parseHeaders_blocks (schemaPairs schema m) []
      (by
        intro p hp
        rw [List.nil_append] at hp
        exact hpairs_plain p hp)
      (by
        rw [List.nil_append]
        unfold schemaPairs
        rw [List.pairwise_map]
        exact hsep)
    rw [List.nil_append] at hblocks
    rw [show ((prefixStr []).length : Nat) = 0 from rfl] at hblocks
    rw [← schemaPairs_names schema m]
    exact hblocks
  rw [hph]
  show parseDataLoop schema
      (joinSep [' '] ((schemaPairs schema m).map (fun p => padRight p.1 p.2))).length
      (expectedCols (schemaPairs schema m) 0)
      (elems.map (renderRow schema m)) 2 [] [] = (elems, none)
  have hloop := parseDataLoop_ok schema
    (joinSep [' '] ((schemaPairs schema m).map (fun p => padRight p.1 p.2))).length
    (expectedCols (schemaPairs schema m) 0)
    (elems.map (renderRow schema m)) elems
    (by
      rw [List.forall₂_map_left_iff]
      rw [show (fun (a : Record) (b : Record) =>
        (renderRow schema m a).length =
          (joinSep [' ']
            ((schemaPairs schema m).map (fun p => padRight p.1 p.2))).length ∧
        ∀ m0 : MapSS, createObject (insertColumns m0
          (expectedCols (schemaPairs schema m) 0) (renderRow schema m a)) schema =
          .ok b) = (fun a b =>
        (renderRow schema m a).length =
          (joinSep [' ']
            ((schemaPairs schema m).map (fun p => padRight p.1 p.2))).length ∧
        ∀ m0 : MapSS, createObject (insertColumns m0
          (expectedCols (schemaPairs schema m) 0) (renderRow schema m a)) schema =
          .ok b) from rfl]
      rw [List.forall₂_same]
      intro r hr
      constructor
      · exact row_length_eq_header (hlen r hr) hwname (hwcell r hr)
      · intro m0
        exact decode_row m hsep hwname (hvals r hr) (hwcell r hr) (hlen r hr) m0)
    2 [] []
  rw [hloop]
  rw [List.nil_append]

end Fwencoder

namespace Fwencoder

theorem marshal_unmarshal_id (schema : Schema) (elems : List Record)
    (hplain : ∀ f ∈ schema, plainName f.name = true)
    (hsep : namesSeparated schema)
    (hrt : ∀ r ∈ elems, recordRTB schema r = true)
    (hfull : ∀ r ∈ elems, ∀ fr ∈ schema.zip r, fr.2 ≠ none)
    (hne : elems ≠ []) (hsne : schema ≠ []) :
    (marshalModel (some (.kPtr (.kSlice (.kStruct schema)))) false (elems.map some)).2 =
      none ∧
    unmarshalModel (some (.kPtr (.kSlice (.kStruct schema)))) false
      (marshalModel (some (.kPtr (.kSlice (.kStruct schema)))) false (elems.map some)).1
      [] = (elems, none) := by
  have hlen : ∀ r ∈ elems, r.length = schema.length := by
    intro r hr
    have hR := hrt r hr
    unfold recordRTB at hR
    rw [Bool.and_eq_true, beq_iff_eq] at hR
    exact hR.1
  have hvals : ∀ r ∈ elems, ∀ fr ∈ schema.zip r, wellTypedB fr.1 fr.2 = true ∧
      rtValB fr.1 fr.2 = true ∧ fr.2 ≠ none := by
    intro r hr fr hfr
    have hR := hrt r hr
    unfold recordRTB at hR
    rw [Bool.and_eq_true] at hR
    have hall := hR.2
    rw [List.all_eq_true] at hall
    have hrtv := hall fr hfr
    have hwt : wellTypedB fr.1 fr.2 = true := by
      have h2 := hrtv
      unfold rtValB at h2
      rw [Bool.and_eq_true] at h2
      exact h2.1
    exact ⟨hwt, hrtv, hfull r hr fr hfr⟩
  have hr0 : ∃ r0, r0 ∈ elems := by
    cases elems with
    | nil => exact absurd rfl hne
    | cons a b => exact ⟨a, by simp⟩
  have hwname : ∀ f ∈ schema, f.name.length ≤
      cwmGet (makeColumnWidthIndex schema (elems.map some)) f.name := by
    intro f hf
    obtain ⟨r0, hr0m⟩ := hr0
    obtain ⟨v, hv⟩ := zip_mem_of_mem_left hf (hlen r0 hr0m)
    exact makeCWI_ge_name (List.mem_map.mpr ⟨r0, hr0m, rfl⟩) hv
  have hwcell : ∀ r ∈ elems, ∀ fr ∈ schema.zip r, getFieldLen fr.2 ≤
      cwmGet (makeColumnWidthIndex schema (elems.map some)) fr.1.name := by
    intro r hr fr hfr
    exact makeCWI_ge_fieldLen (List.mem_map.mpr ⟨r, hr, rfl⟩) hfr
  have hcore := roundtrip_core schema elems (makeColumnWidthIndex schema (elems.map some))
    hplain hsep hwname hlen hvals hwcell hne hsne
  have hwd := writeData_all_some schema (makeColumnWidthIndex schema (elems.map some))
    elems hne
  constructor
  · rw [marshalModel_struct]
    show (writeData schema (makeColumnWidthIndex schema (elems.map some))
      (elems.map some)).2 = none
    rw [hwd]
  · rw [marshalModel_struct]
    show unmarshalModel (some (.kPtr (.kSlice (.kStruct schema)))) false
      (writeHeader (schema.map (fun f => f.name))
        (makeColumnWidthIndex schema (elems.map some)) ++
        (writeData schema (makeColumnWidthIndex schema (elems.map some))
          (elems.map some)).1) [] = (elems, none)
    rw [hwd]
    show unmarshalModel (some (.kPtr (.kSlice (.kStruct schema)))) false
      (writeHeader (schema.map (fun f => f.name))
        (makeColumnWidthIndex schema (elems.map some)) ++
        joinSep ['\n'] (elems.map (renderRow schema
          (makeColumnWidthIndex schema (elems.map some))))) [] = (elems, none)
    rw [unmarshalModel_struct]
    exact hcore

end Fwencoder

namespace Fwencoder

theorem goParseInt64_some {s : Str} {v : Int} (h : goParseInt64 s = some v) :
    parseIntSyntax s = some v ∧ -(2 ^ 63) ≤ v ∧ v < 2 ^ 63 := by
  unfold goParseInt64 at h
  cases hp : parseIntSyntax s with
  | none => rw [hp] at h; cases h
  | some v2 =>
    rw [hp] at h
    have h2 : (if -(2 ^ 63) ≤ v2 ∧ v2 < 2 ^ 63 then some v2 else none) = some v := h
    by_cases hr : -(2 ^ 63) ≤ v2 ∧ v2 < 2 ^ 63
    · rw [if_pos hr] at h2
      cases h2
      exact ⟨rfl, hr⟩
    · rw [if_neg hr] at h2
      cases h2

theorem goParseInt64_none_of_big {s : Str} {v : Int}
    (hp : parseIntSyntax s = some v) (hout : ¬(-(2 ^ 63) ≤ v ∧ v < 2 ^ 63)) :
    goParseInt64 s = none := by
  unfold goParseInt64
  rw [hp]
  show (if -(2 ^ 63) ≤ v ∧ v < 2 ^ 63 then some v else none) = none
  rw [if_neg hout]

theorem parseDataLoop_bad (schema : Schema) (hdrLen : Nat) (cols : List FwColumn)
    {ls1 : List Str} {rs1 : List Record}
    (hgood : List.Forall₂ (goodLine schema hdrLen cols) ls1 rs1)
    (bad : Str) (rest : List Str) (hbad : bad.length ≠ hdrLen) :
    ∀ (n : Nat) (m : MapSS) (acc : List Record),
      parseDataLoop schema hdrLen cols (ls1 ++ bad :: rest) n m acc =
        (acc ++ rs1, some (.wrongDataLength (n + ls1.length))) := by
  induction hgood with
  | nil =>
    intro n m acc
    rw [List.nil_append, List.append_nil]
    have heq : parseDataLoop schema hdrLen cols (bad :: rest) n m acc =
        (if bad.length ≠ hdrLen then (acc, some (.wrongDataLength n)) else
          match createObject (insertColumns m cols bad) schema with
          | .error e => (acc, some (.lineError n e))
          | .ok r2 => parseDataLoop schema hdrLen cols rest (n + 1)
              (insertColumns m cols bad) (acc ++ [r2])) := rfl
    rw [heq, if_pos hbad]
    rfl
  | @cons l r ls2 rs2 hlr hrest ih =>
    intro n m acc
    rw [List.cons_append]
    have heq : parseDataLoop schema hdrLen cols (l :: (ls2 ++ bad :: rest)) n m acc =
        (if l.length ≠ hdrLen then (acc, some (.wrongDataLength n)) else
          match createObject (insertColumns m cols l) schema with
          | .error e => (acc, some (.lineError n e))
          | .ok r2 => parseDataLoop schema hdrLen cols (ls2 ++ bad :: rest) (n + 1)
              (insertColumns m cols l) (acc ++ [r2])) := rfl
    rw [heq, if_neg (by rw [hlr.1]; exact fun hc => hc rfl), hlr.2 m]
    show parseDataLoop schema hdrLen cols (ls2 ++ bad :: rest) (n + 1)
      (insertColumns m cols l) (acc ++ [r]) = _
    rw [ih (n + 1) (insertColumns m cols l) (acc ++ [r])]
    rw [List.append_assoc, show (n + 1) + ls2.length = n + (l :: ls2).length from by
      rw [List.length_cons]; omega]
    rfl

theorem writeData_none_elem (schema : Schema) (m : CWI) :
    ∀ (pre : List Record) (post : List (Option Record)),
    writeData schema m (pre.map some ++ none :: post) =
      (((pre.map (renderRow schema m)).map (fun row => row ++ ['\n'])).flatten,
        some (.reflectError "NumField".data)) := by
  intro pre
  induction pre with
  | nil => intro post; rfl
  | cons r pre2 ih =>
    intro post
    rw [List.map_cons, List.cons_append]
    cases hrest : pre2.map some ++ none :: post with
    | nil =>
      exfalso
      cases pre2 with
      | nil => simp at hrest
      | cons a b => simp at hrest
    | cons a t =>
      show (renderRow schema m r ++ '\n' :: (writeData schema m (a :: t)).1,
        (writeData schema m (a :: t)).2) = _
      rw [← hrest, ih post]
      rw [List.map_cons, List.map_cons, List.flatten_cons]
      show (renderRow schema m r ++ '\n' ::
        ((pre2.map (renderRow schema m)).map (fun row => row ++ ['\n'])).flatten,
        some (GoErr.reflectError "NumField".data)) = _
      rw [List.append_assoc]
      rfl

theorem unmarshal_invalid {tgt : Option GoKind} (hbad : shapeValid tgt = false)
    (b : Bool) (input : Str) (prior : List Record) :
    unmarshalModel tgt b input prior = (prior, some .incorrectInput) := by
  cases tgt with
  | none => rfl
  | some t0 =>
    cases t0 with
    | kScalar t => rfl
    | kStruct s => rfl
    | kSlice e => rfl
    | kPtr e =>
      cases e with
      | kScalar t => rfl
      | kStruct s => rfl
      | kPtr e2 => rfl
      | kSlice t2 =>
        cases t2 with
        | kScalar t => rfl
        | kSlice e3 => rfl
        | kStruct s => simp [shapeValid] at hbad
        | kPtr e3 =>
          cases e3 with
          | kScalar t => rfl
          | kSlice e4 => rfl
          | kPtr e4 => rfl
          | kStruct s => simp [shapeValid] at hbad

theorem marshal_invalid {tgt : Option GoKind} (hbad : shapeValid tgt = false)
    (b : Bool) (elems : List (Option Record)) :
    marshalModel tgt b elems = ([], some .incorrectInput) := by
  cases tgt with
  | none => rfl
  | some t0 =>
    cases t0 with
    | kScalar t => rfl
    | kStruct s => rfl
    | kSlice e => rfl
    | kPtr e =>
      cases e with
      | kScalar t => rfl
      | kStruct s => rfl
      | kPtr e2 => rfl
      | kSlice t2 =>
        cases t2 with
        | kScalar t => rfl
        | kSlice e3 => rfl
        | kStruct s => simp [shapeValid] at hbad
        | kPtr e3 =>
          cases e3 with
          | kScalar t => rfl
          | kSlice e4 => rfl
          | kPtr e4 => rfl
          | kStruct s => simp [shapeValid] at hbad

end Fwencoder

namespace Fwencoder

end Fwencoder

namespace Fwencoder

end Fwencoder

namespace Fwencoder

/-- C3: per-width overflow detection for signed integer fields.  Amended:
the overflow error is reported for literals whose value fits in 64 bits
but not in the declared width — a literal beyond the 64-bit range fails
earlier, in parsing, with a cast error (see the counterexample and C10);
within the 64-bit range the value is never truncated or wrapped: it either
round-trips exactly (fits) or the decode of the field fails. -/
theorem C3_int_overflow (f : FieldDesc) (w : IntW) (v : Int)
    (hf : f.ty = .intK w) (h64 : -(2 ^ 63) ≤ v ∧ v < 2 ^ 63) :
    (¬ fitsInt w v → setFieldValue f (goFormatInt v) =
      .error (.overflowErrorInt v f.name (typeName f))) ∧
    (fitsInt w v → setFieldValue f (goFormatInt v) = .ok (some (.vint w v))) := by
  obtain ⟨nm, ty, ip⟩ := f
  cases hf
  have htrim : goTrimSpace (goFormatInt v) = goFormatInt v :=
    noSpace_goTrimSpace (goFormatInt_no_space v)
  have hred : setFieldValue ⟨nm, FieldType.intK w, ip⟩ (goFormatInt v) =
      (match goParseInt64 (goTrimSpace (goFormatInt v)) with
        | none => Except.error (GoErr.castError (goTrimSpace (goFormatInt v)) nm
            (typeName ⟨nm, FieldType.intK w, ip⟩))
        | some v2 => if fitsInt w v2 then Except.ok (some (FieldVal.vint w v2))
            else Except.error (GoErr.overflowErrorInt v2 nm
              (typeName ⟨nm, FieldType.intK w, ip⟩))) := rfl
  rw [hred, htrim, goParseInt64_format h64]
  constructor
  · intro hnofit
    show (if fitsInt w v then Except.ok (some (FieldVal.vint w v))
      else Except.error (GoErr.overflowErrorInt v nm
        (typeName ⟨nm, FieldType.intK w, ip⟩))) = _
    rw [if_neg hnofit]
  · intro hfit
    show (if fitsInt w v then Except.ok (some (FieldVal.vint w v))
      else Except.error (GoErr.overflowErrorInt v nm
        (typeName ⟨nm, FieldType.intK w, ip⟩))) = _
    rw [if_pos hfit]

theorem C3_counterexample :
    setFieldValue ⟨"A".data, .intK .w8, false⟩ "9223372036854775808".data =
      .error (.castError "9223372036854775808".data "A".data "int8".data) ∧
    isOverflowErr (.castError "9223372036854775808".data "A".data "int8".data) =
      false := by
  constructor
  · decide
  · decide

theorem C3_witness :
    setFieldValue ⟨"Int8".data, .intK .w8, false⟩ (goFormatInt 5123) =
      .error (.overflowErrorInt 5123 "Int8".data "int8".data) ∧
    setFieldValue ⟨"Int32".data, .intK .w32, false⟩ (goFormatInt 5123) =
      .ok (some (.vint .w32 5123)) :=
  ⟨(C3_int_overflow ⟨"Int8".data, .intK .w8, false⟩ .w8 5123 rfl
      (by decide)).1 (by decide),
   (C3_int_overflow ⟨"Int32".data, .intK .w32, false⟩ .w32 5123 rfl
      (by decide)).2 (by decide)⟩

/-- C10: signed-integer cells parse as 64-bit first.  A literal whose value
lies outside the signed 64-bit range always fails with a cast error, never
an overflow error, and any overflow error the field decode reports carries
a value inside the 64-bit range that merely exceeds the declared narrower
width. -/
theorem C10_parse_then_overflow (f : FieldDesc) (w : IntW) (s : Str)
    (hf : f.ty = .intK w) :
    (∀ v : Int, parseIntSyntax (goTrimSpace s) = some v →
      ¬(-(2 ^ 63) ≤ v ∧ v < 2 ^ 63) →
      setFieldValue f s = .error (.castError (goTrimSpace s) f.name (typeName f))) ∧
    (∀ (v : Int) (nm2 ty2 : Str),
      setFieldValue f s = .error (.overflowErrorInt v nm2 ty2) →
      (-(2 ^ 63) ≤ v ∧ v < 2 ^ 63) ∧ ¬ fitsInt w v) := by
  obtain ⟨nm, ty, ip⟩ := f
  cases hf
  have hred : setFieldValue ⟨nm, FieldType.intK w, ip⟩ s =
      (match goParseInt64 (goTrimSpace s) with
        | none => Except.error (GoErr.castError (goTrimSpace s) nm
            (typeName ⟨nm, FieldType.intK w, ip⟩))
        | some v2 => if fitsInt w v2 then Except.ok (some (FieldVal.vint w v2))
            else Except.error (GoErr.overflowErrorInt v2 nm
              (typeName ⟨nm, FieldType.intK w, ip⟩))) := rfl
  rw [hred]
  constructor
  · intro v hp hout
    rw [goParseInt64_none_of_big hp hout]
  · intro v nm2 ty2 h
    cases hg : goParseInt64 (goTrimSpace s) with
    | none =>
      rw [hg] at h
      simp at h
    | some v2 =>
      rw [hg] at h
      have h2 : (if fitsInt w v2 then Except.ok (some (FieldVal.vint w v2))
          else Except.error (GoErr.overflowErrorInt v2 nm
            (typeName ⟨nm, FieldType.intK w, ip⟩))) =
          Except.error (GoErr.overflowErrorInt v nm2 ty2) := h
      by_cases hfit : fitsInt w v2
      · rw [if_pos hfit] at h2
        simp at h2
      · rw [if_neg hfit] at h2
        have h3 := h2
        simp only [Except.error.injEq, GoErr.overflowErrorInt.injEq] at h3
        obtain ⟨rfl, _, _⟩ := h3
        exact ⟨(goParseInt64_some hg).2, hfit⟩

theorem C10_witness :
    setFieldValue ⟨"A".data, .intK .w8, false⟩ "9223372036854775808".data =
      .error (.castError "9223372036854775808".data "A".data "int8".data) :=
  (C10_parse_then_overflow ⟨"A".data, .intK .w8, false⟩ .w8
      "9223372036854775808".data rfl).1 9223372036854775808 (by decide) (by decide)

end Fwencoder

namespace Fwencoder

/-- C4: a data line whose character length differs from the header line's
fails the decode with an error naming that line's 1-based number, the
header counting as line 1: after `k` well-formed data lines (lines 2
through `k+1`), a wrong-length line fails as line `2 + k`. -/
theorem C4_wrong_line_length (schema : Schema) (input : Str) (hdr : Str)
    (cols : List FwColumn) (ls1 : List Str) (rs1 : List Record) (bad : Str)
    (rest : List Str)
    (hscan : goScanLines input = hdr :: (ls1 ++ bad :: rest))
    (hph : parseHeaders hdr (schema.map (fun f => f.name)) = .ok cols)
    (hgood : List.Forall₂ (goodLine schema hdr.length cols) ls1 rs1)
    (hbad : bad.length ≠ hdr.length) :
    (parseData input schema).2 = some (.wrongDataLength (2 + ls1.length)) := by
  unfold parseData
  rw [hscan]
  show (match parseHeaders hdr (schema.map (fun f : FieldDesc => f.name)) with
    | .error e => (([] : List Record), some e)
    | .ok cols2 => parseDataLoop schema hdr.length cols2
        (ls1 ++ bad :: rest) 2 [] []).2 = some (.wrongDataLength (2 + ls1.length))
  rw [hph]
  show (parseDataLoop schema hdr.length cols (ls1 ++ bad :: rest) 2 [] []).2 =
    some (.wrongDataLength (2 + ls1.length))
  rw [parseDataLoop_bad schema hdr.length cols hgood bad rest hbad 2 [] []]

theorem C4_witness :
    (parseData "Int\n5".data [⟨"Int".data, .intK .w64, false⟩]).2 =
      some (.wrongDataLength 2) :=
  C4_wrong_line_length [⟨"Int".data, .intK .w64, false⟩] "Int\n5".data "Int".data
    [⟨"Int".data, 0, 3⟩] [] [] "5".data [] (by decide) (by decide)
    List.Forall₂.nil (by decide)

/-- C7: what the failing decode leaves in the target.  The claim that no
partial results are retained is false: the scan loop appends each decoded
record to the caller's slice before reading the next line, so on an error
at line `2 + k` the target keeps the `k` records of lines 2..`k+1` (the
returned error is the only signal).  Stated for a fresh (nil) target
slice. -/
theorem C7_partial_results_retained (schema : Schema) (input : Str) (hdr : Str)
    (cols : List FwColumn) (ls1 : List Str) (rs1 : List Record) (bad : Str)
    (rest : List Str)
    (hscan : goScanLines input = hdr :: (ls1 ++ bad :: rest))
    (hph : parseHeaders hdr (schema.map (fun f => f.name)) = .ok cols)
    (hgood : List.Forall₂ (goodLine schema hdr.length cols) ls1 rs1)
    (hbad : bad.length ≠ hdr.length) :
    unmarshalModel (some (.kPtr (.kSlice (.kStruct schema)))) false input [] =
      (rs1, some (.wrongDataLength (2 + ls1.length))) := by
  rw [unmarshalModel_struct]
  unfold parseData
  rw [hscan]
  show (match parseHeaders hdr (schema.map (fun f : FieldDesc => f.name)) with
    | .error e => (([] : List Record), some e)
    | .ok cols2 => parseDataLoop schema hdr.length cols2
        (ls1 ++ bad :: rest) 2 [] []) = (rs1, some (.wrongDataLength (2 + ls1.length)))
  rw [hph]
  show parseDataLoop schema hdr.length cols (ls1 ++ bad :: rest) 2 [] [] =
    (rs1, some (.wrongDataLength (2 + ls1.length)))
  rw [parseDataLoop_bad schema hdr.length cols hgood bad rest hbad 2 [] []]
  rw [List.nil_append]

theorem C7_counterexample :
    unmarshalModel (some (.kPtr (.kSlice
        (.kStruct [⟨"I".data, .intK .w64, false⟩])))) false "I\n5\nxx".data [] =
      ([[some (.vint .w64 5)]], some (.wrongDataLength 3)) ∧
    ([[some (.vint .w64 5)]] : List Record) ≠ [] := by
  constructor
  · decide
  · decide

theorem C7_witness :
    unmarshalModel (some (.kPtr (.kSlice
        (.kStruct [⟨"I".data, .intK .w64, false⟩])))) false "I\n5\nxx".data [] =
      ([[some (.vint .w64 5)]], some (.wrongDataLength 3)) := by
  have hgood : List.Forall₂
      (goodLine [⟨"I".data, .intK .w64, false⟩] ("I".data).length [⟨"I".data, 0, 1⟩])
      ["5".data] [[some (.vint .w64 5)]] := by
    refine List.Forall₂.cons ⟨rfl, ?_⟩ List.Forall₂.nil
    intro m
    have hl := @insertColumns_lookup_unique [⟨"I".data, 0, 1⟩]
      ⟨"I".data, 0, 1⟩ (by simp) (by simp) m "5".data
    rw [@createObject_cons_some (insertColumns m [⟨"I".data, 0, 1⟩] "5".data)
      ⟨"I".data, .intK .w64, false⟩ [] _ (some (.vint .w64 5)) hl (by decide)]
    rfl
  exact C7_partial_results_retained [⟨"I".data, .intK .w64, false⟩] "I\n5\nxx".data
    "I".data [⟨"I".data, 0, 1⟩] ["5".data] [[some (.vint .w64 5)]] "xx".data []
    (by decide) (by decide) hgood (by decide)

end Fwencoder

namespace Fwencoder

/-- C5: header column resolution, on the literal domain: an ASCII,
regexp-metacharacter-free name and an ASCII header line — the fragment
where the unescaped name splice compiles, matches literally, and Go's
byte offsets equal character offsets.  There the pattern always compiles
(the pattern-error path is never taken), a hit records the span starting
at the leftmost occurrence of the literal name with the end one past the
maximal run of trailing spaces consumed, and a name with no occurrence
is silently skipped with no error.  Outside this domain the claim is
false: the name is spliced unescaped into the pattern, so a
metacharacter name matches non-literally (see the counterexample, where
A.B matches the header text AXB). -/
theorem C5_header_resolution (hd n : Str) (rest : List Str)
    (hn : litName n = true) (hhd : ∀ c ∈ hd, c.toNat < 128) :
    goRegexpValid (mkHeaderPattern n) = true ∧
    (∀ (s e : Nat) (cols : List FwColumn),
      findPattern n hd = some (s, e) →
      parseHeaders hd rest = .ok cols →
      parseHeaders hd (n :: rest) = .ok (⟨n, s, e⟩ :: cols)) ∧
    (findPattern n hd = none →
      parseHeaders hd (n :: rest) = parseHeaders hd rest) ∧
    (∀ (s e : Nat), findPattern n hd = some (s, e) →
      isPrefixAt n hd s ∧ (∀ j < s, ¬ isPrefixAt n hd j) ∧
        e = s + n.length + countSpaces (hd.drop (s + n.length))) := by
  have hval : goRegexpValid (mkHeaderPattern n) = true := by
    apply plainName_regexValid
    intro c hc
    unfold litName at hn
    rw [List.all_eq_true] at hn
    exact hn c hc
  refine ⟨hval, ?_, ?_, ?_⟩
  · intro s e cols hfind hcols
    have hred : parseHeaders hd (n :: rest) =
        (if goRegexpValid (mkHeaderPattern n) then
          match findPattern n hd with
          | none => parseHeaders hd rest
          | some (s2, e2) =>
            match parseHeaders hd rest with
            | .error err => .error err
            | .ok cols2 => .ok ((⟨n, s2, e2⟩ : FwColumn) :: cols2)
        else .error (.patternError n)) := rfl
    rw [hred, if_pos hval, hfind]
    show (match parseHeaders hd rest with
      | .error err => Except.error err
      | .ok cols2 => .ok ((⟨n, s, e⟩ : FwColumn) :: cols2)) = _
    rw [hcols]
  · intro hfind
    have hred : parseHeaders hd (n :: rest) =
        (if goRegexpValid (mkHeaderPattern n) then
          match findPattern n hd with
          | none => parseHeaders hd rest
          | some (s2, e2) =>
            match parseHeaders hd rest with
            | .error err => .error err
            | .ok cols2 => .ok ((⟨n, s2, e2⟩ : FwColumn) :: cols2)
        else .error (.patternError n)) := rfl
    rw [hred, if_pos hval, hfind]
  · intro s e h
    unfold findPattern at h
    cases ho : firstOccur n hd with
    | none => rw [ho] at h; cases h
    | some k =>
      rw [ho] at h
      have h2 : (k, k + n.length + countSpaces (hd.drop (k + n.length))) = (s, e) := by
        have h3 := h
        simp only [Option.some.injEq] at h3
        exact h3
      obtain ⟨rfl, rfl⟩ : k = s ∧ k + n.length + countSpaces (hd.drop (k + n.length)) = e := by
        rw [Prod.mk.injEq] at h2
        exact h2
      obtain ⟨hpre, hmin⟩ := firstOccur_eq_some ho
      exact ⟨hpre, hmin, rfl⟩

theorem C5_counterexample :
    dotFirstOccur "A.B".data "AXB".data = some 0 ∧
    firstOccur "A.B".data "AXB".data = none := by decide

theorem C5_witness :
    goRegexpValid (mkHeaderPattern "B".data) = true ∧
    parseHeaders "A  B  ".data ["B".data] = .ok [⟨"B".data, 3, 6⟩] ∧
    parseHeaders "A  B  ".data ["C".data] = parseHeaders "A  B  ".data [] ∧
    (isPrefixAt "B".data "A  B  ".data 3 ∧
      (∀ j < 3, ¬ isPrefixAt "B".data "A  B  ".data j) ∧
      (6 : Nat) = 3 + ("B".data).length +
        countSpaces ("A  B  ".data.drop (3 + ("B".data).length))) := by
  have h := C5_header_resolution "A  B  ".data "B".data [] (by decide) (by decide)
  have h2 := C5_header_resolution "A  B  ".data "C".data [] (by decide) (by decide)
  exact ⟨h.1, h.2.1 3 6 [] (by decide) (by decide), h2.2.2.1 (by decide),
    h.2.2.2 3 6 (by decide)⟩

end Fwencoder

namespace Fwencoder

/-- C6: optional (pointer) fields and blank cells.  The encode half of the
claim holds: a nil optional value renders as a run of spaces of the
column width.  The decode half is false: `setFieldValue` has no blank
check, so (shown here for a signed integer pointer field) a cell of
spaces trims to the empty string and fails with a cast error instead of
decoding to a nil pointer. -/
theorem C6_pointer_blank (f : FieldDesc) (w : IntW) (width k : Nat)
    (hf : f.ty = .intK w) :
    writeValue none width = spaces width ∧
    setFieldValue f (spaces k) = .error (.castError [] f.name (typeName f)) := by
  obtain ⟨nm, ty, ip⟩ := f
  cases hf
  refine ⟨rfl, ?_⟩
  have htrim : goTrimSpace (spaces k) = [] := by
    have h0 : goTrimSpace (([] : Str) ++ spaces k) = [] :=
      noSpace_trim_spaces (by simp) k
    rw [List.nil_append] at h0
    exact h0
  have hred : setFieldValue ⟨nm, FieldType.intK w, ip⟩ (spaces k) =
      (match goParseInt64 (goTrimSpace (spaces k)) with
        | none => Except.error (GoErr.castError (goTrimSpace (spaces k)) nm
            (typeName ⟨nm, FieldType.intK w, ip⟩))
        | some v2 => if fitsInt w v2 then Except.ok (some (FieldVal.vint w v2))
            else Except.error (GoErr.overflowErrorInt v2 nm
              (typeName ⟨nm, FieldType.intK w, ip⟩))) := rfl
  rw [hred, htrim]
  rfl

theorem C6_counterexample :
    setFieldValue ⟨"P".data, .intK .w64, true⟩ "   ".data =
      .error (.castError [] "P".data "*int64".data) ∧
    setFieldValue ⟨"P".data, .intK .w64, true⟩ "   ".data ≠ .ok none := by
  constructor
  · decide
  · decide

theorem C6_witness :
    writeValue none 3 = spaces 3 ∧
    setFieldValue ⟨"P".data, .intK .w64, true⟩ (spaces 3) =
      .error (.castError [] "P".data "*int64".data) :=
  C6_pointer_blank ⟨"P".data, .intK .w64, true⟩ .w64 3 3 rfl

/-- C8: nil elements of a pointer slice at encode time.  The width-pass
half of the claim holds: a nil element is skipped and contributes to no
column's maximum.  The emission half is false: `writeData` dereferences
the nil element (`item.Elem().NumField()` panics, recovered into a
reflect error) after emitting the preceding rows, instead of rendering an
all-blank row. -/
theorem C8_nil_element (schema : Schema) (m : CWI)
    (pre1 post1 : List (Option Record)) (pre : List Record)
    (post : List (Option Record)) :
    makeColumnWidthIndex schema (pre1 ++ none :: post1) =
      makeColumnWidthIndex schema (pre1 ++ post1) ∧
    writeData schema m (pre.map some ++ none :: post) =
      (((pre.map (renderRow schema m)).map (fun row => row ++ ['\n'])).flatten,
        some (.reflectError "NumField".data)) :=
  ⟨makeCWI_skip_none schema pre1 post1, writeData_none_elem schema m pre post⟩

theorem C8_counterexample :
    marshalModel (some (.kPtr (.kSlice (.kPtr
        (.kStruct [⟨"A".data, .intK .w64, false⟩]))))) false
      [some [some (.vint .w64 5)], none] =
      ("A\n5\n".data, some (.reflectError "NumField".data)) := by decide

/-- C9: invalid call targets.  Amended: every target whose type shape is
not a pointer to a slice of structs or of pointers to structs fails both
directions with the incorrect-input error, touching neither the target
records nor the output; but a TYPED NIL pointer of the right shape — also
"not a non-nil pointer to a slice of structs" — passes the type check and
fails later with a reflect error instead (see the counterexample), so the
claim's error holds only for wrong-shaped targets. -/
theorem C9_invalid_target (tgt : Option GoKind) (b : Bool) (input : Str)
    (prior : List Record) (elems : List (Option Record))
    (hbad : shapeValid tgt = false) :
    unmarshalModel tgt b input prior = (prior, some .incorrectInput) ∧
    marshalModel tgt b elems = ([], some .incorrectInput) :=
  ⟨unmarshal_invalid hbad b input prior, marshal_invalid hbad b elems⟩

theorem C9_counterexample :
    unmarshalModel (some (.kPtr (.kSlice (.kStruct [⟨"A".data, .strK, false⟩])))) true
      "A\nx".data [] = ([], some (.reflectError "Slice".data)) ∧
    marshalModel (some (.kPtr (.kSlice (.kStruct [⟨"A".data, .strK, false⟩])))) true
      [] = ([], some (.reflectError "Len".data)) ∧
    some (GoErr.reflectError "Slice".data) ≠ some GoErr.incorrectInput := by
  refine ⟨?_, ?_, ?_⟩
  · decide
  · decide
  · decide

theorem C9_witness :
    unmarshalModel (some (.kScalar .strK)) false "A\nx".data [[some (.vbool true)]] =
      ([[some (.vbool true)]], some .incorrectInput) ∧
    marshalModel (some (.kScalar .strK)) false [] = ([], some .incorrectInput) :=
  C9_invalid_target (some (.kScalar .strK)) false "A\nx".data
    [[some (.vbool true)]] [] (by decide)

end Fwencoder
